import Mathlib

/-!
# A shallow embedding of the go.xml marshaller

This file embeds the encoding half of the `xml` package (files
`namespace.go` and the marshaller source) into Lean and proves the
specified properties of it.

Modelling conventions:

* Go's mutable heap of `context` nodes is modelled by a store
  `CtxStore = List CtxNode`: a node's address is its index, `child()`
  appends a fresh node at the end, and in every store built by the
  encoder a node's `parent` index is strictly below its own index
  except at the self-parented root (index 0).
* `reflect.Value` is modelled by the deep type `Value`, covering the
  kinds the marshaller dispatches on.  `time.Time` values and floats
  are outside the modelled universe, so the `timeType` special cases
  of the source have no analogue here.
* The recursive `marshalValue` / `marshalStruct` pair is embedded as
  mutually structurally recursive functions over the mutual inductive
  `Value` / `ValueList` / `FieldList`, so everything computes by `rfl`
  or `decide` on concrete inputs.
* Errors carry the state reached so far (`Except (MErr × EncSt)`),
  matching the Go behaviour of leaving partially written output in the
  sink when an encode aborts.
-/

/-! ## Namespace context (`namespace.go`) -/

def XML_NS : String := "http://www.w3.org/XML/1998/namespace"

def XMLNS_NS : String := "http://www.w3.org/2000/xmlns/"

/-- Go `map[string]string`, as an association list whose `pfxPut`
overwrites the binding of an existing key. -/
abbrev PfxMap := List (String × String)

def pfxGet : PfxMap → String → Option String
  | [], _ => none
  | (k, v) :: rest, key => if k = key then some v else pfxGet rest key

def pfxPut : PfxMap → String → String → PfxMap
  | [], k, v => [(k, v)]
  | (k0, v0) :: rest, k, v =>
    if k0 = k then (k, v) :: rest else (k0, v0) :: pfxPut rest k v

/-- One `context` node: the element's namespace, its local
namespace-to-prefix map, and the index of its parent node. -/
structure CtxNode where
  xmlns : String
  pfxmap : PfxMap
  parent : Nat
deriving Repr, DecidableEq

/-- The reachable heap of context nodes; a node's address is its index. -/
abbrev CtxStore := List CtxNode

def storeModify (st : CtxStore) (i : Nat) (f : CtxNode → CtxNode) : CtxStore :=
  match st[i]? with
  | none => st
  | some n => st.set i (f n)

def storeSetXmlns (st : CtxStore) (i : Nat) (ns : String) : CtxStore :=
  storeModify st i (fun n => { n with xmlns := ns })

/-- `nsctx.pfxmap[k] = v` on the node at index `i`. -/
def storeBind (st : CtxStore) (i : Nat) (k v : String) : CtxStore :=
  storeModify st i (fun n => { n with pfxmap := pfxPut n.pfxmap k v })

/-- Read `nsctx.xmlns` of the node at index `i`. -/
def ctxXmlns (st : CtxStore) (i : Nat) : String :=
  match st[i]? with
  | some n => n.xmlns
  | none => ""

/-- `context.child()`: a fresh node with an empty map, linked to `parentIdx`. -/
def newCtxNode (parentIdx : Nat) : CtxNode :=
  { xmlns := "", pfxmap := [], parent := parentIdx }

/-- The root node built by `rootNs2Pfx()`: self-parented, pre-seeded with
the two reserved bindings. -/
def rootCtxNode : CtxNode :=
  { xmlns := ""
    pfxmap := [(XML_NS, "xml"), (XMLNS_NS, "xmlns")]
    parent := 0 }

def rootNs2Pfx : CtxStore := [rootCtxNode]

/-- `context.Get`, fuel-indexed so that it is structural.  The recursion
follows the parent link while it strictly descends; the self-parented
root fails the `n.parent != n` test of the source exactly when the
descent stops here. -/
def ctxGetF : Nat → CtxStore → Nat → String → Option String
  | 0, _, _, _ => none
  | fuel + 1, st, i, k =>
    match st[i]? with
    | none => none
    | some n =>
      match pfxGet n.pfxmap k with
      | some v => some v
      | none => if n.parent < i then ctxGetF fuel st n.parent k else none

/-- `context.Get`: a chain strictly descends from `i`, so `i + 1` steps
always suffice. -/
def ctxGet (st : CtxStore) (i : Nat) (k : String) : Option String :=
  ctxGetF (i + 1) st i k

/-- The nodes of the parent chain of `i`, nearest first. -/
def chainNodesF : Nat → CtxStore → Nat → List CtxNode
  | 0, _, _ => []
  | fuel + 1, st, i =>
    match st[i]? with
    | none => []
    | some n => n :: (if n.parent < i then chainNodesF fuel st n.parent else [])

def chainNodes (st : CtxStore) (i : Nat) : List CtxNode :=
  chainNodesF (i + 1) st i

/-- The parent chain of `i` descends to the seeded root node at index 0. -/
def rootedF : Nat → CtxStore → Nat → Bool
  | 0, _, _ => false
  | fuel + 1, st, i =>
    if i = 0 then st[0]? == some rootCtxNode
    else
      match st[i]? with
      | none => false
      | some n => n.parent < i && rootedF fuel st n.parent

def rooted (st : CtxStore) (i : Nat) : Bool :=
  rootedF (i + 1) st i

/-! ## Printer state -/

structure Printer where
  out : String
  prefixStr : String
  indent : String
  depth : Int
  indentedIn : Bool
  putNewline : Bool
deriving Repr, DecidableEq

def Printer.write (p : Printer) (s : String) : Printer :=
  { p with out := p.out ++ s }

def strRepeat (s : String) : Nat → String
  | 0 => ""
  | n + 1 => s ++ strRepeat s n

/-- The tail of `printer.writeIndent` past the early returns: newline if
one is pending, the line prefix, `depth` copies of the indent unit, and
the depth/indentedIn bookkeeping for `depthDelta > 0`. -/
def writeIndentRest (p : Printer) (depthDelta : Int) : Printer :=
  let p2 := if p.putNewline then { p with out := p.out ++ "\n" }
            else { p with putNewline := true }
  let p3 := if p2.prefixStr.isEmpty then p2
            else { p2 with out := p2.out ++ p2.prefixStr }
  let p4 := if p3.indent.isEmpty then p3
            else { p3 with out := p3.out ++ strRepeat p3.indent p3.depth.toNat }
  if depthDelta > 0 then { p4 with depth := p4.depth + 1, indentedIn := true }
  else p4

/-- `printer.writeIndent`. -/
def Printer.writeIndent (p : Printer) (depthDelta : Int) : Printer :=
  if p.prefixStr.isEmpty && p.indent.isEmpty then p
  else if depthDelta < 0 then
    let pA := { p with depth := p.depth - 1, indentedIn := false }
    if p.indentedIn then pA
    else writeIndentRest pA depthDelta
  else writeIndentRest p depthDelta

/-! ## Escaping (external collaborator) -/

/-- Modelled from the spec: `Escape` is the external escaping utility
(`escape(writer, raw_bytes)` writes XML-safe text, escaping `<`, `>`,
`&` and the quotes); modelled as a character-by-character replacement
of the five reserved characters. -/
def escChar (c : Char) : String :=
  if c = '<' then "&lt;"
  else if c = '>' then "&gt;"
  else if c = '&' then "&amp;"
  else if c = '\'' then "&apos;"
  else if c = '"' then "&quot;"
  else String.singleton c

def escapeStr (s : String) : String :=
  String.join (s.data.map escChar)


/-! ## Field descriptors and values -/

/-- `finfo.flags & fMode`: the encoding mode of a struct field. -/
inductive FMode where
  | fElement
  | fAttr
  | fCharData
  | fInnerXml
  | fComment
  | fElementAny
deriving Repr, DecidableEq

/-- Modelled from the spec: one field descriptor produced by the external
Type Descriptor Provider (`fieldInfo` of the consumed type-introspection
subsystem): name, namespace URI, explicit prefix, mode, omit-if-empty
flag, and the `a>b` path segments of synthetic parents. -/
structure FieldInfo where
  name : String
  xmlns : String
  pfx : String
  mode : FMode
  omitEmpty : Bool
  parents : List String
deriving Repr, DecidableEq

/-- `xml.Name` (declared outside the marshaller source): a namespace URI
and a local name. -/
structure NameV where
  space : String
  localName : String
deriving Repr, DecidableEq

/-- The statically tagged part of `tinfo.xmlname`. -/
structure XmlNameInfo where
  name : String
  xmlns : String
deriving Repr, DecidableEq

mutual
/-- A `reflect.Value`, restricted to the kinds the marshaller dispatches
on.  A nil pointer (`IsNil`) is `ptrNil` and a non-nil one `ptrV`,
likewise for interfaces.  A struct value carries its type name, its
`tinfo.xmlname` descriptor, the runtime `xml.Name` held by that field
(if any), and its field descriptors paired with the field values (the
external `getTypeInfo` / `finfo.value(val)` pair, consumed as a black
box).  The list types are part of the mutual package so that the
marshaller below is structurally recursive. -/
inductive Value where
  | invalid
  | ptrNil
  | ptrV (inner : Value)
  | ifaceNil
  | ifaceV (inner : Value)
  | arr (elems : ValueList)
  | bytes (data : String)
  | str (s : String)
  | intV (n : Int)
  | boolV (b : Bool)
  | mapV (size : Nat)
  | structV (tname : String) (xmlname : Option XmlNameInfo)
      (xmlnameVal : Option NameV) (fields : FieldList)

inductive ValueList where
  | nil
  | cons (v : Value) (rest : ValueList)

inductive FieldList where
  | nil
  | cons (fi : FieldInfo) (v : Value) (rest : FieldList)
end

/-- `typ.Name()`: named builtin scalar types keep their names, unnamed
reference/aggregate types have none. -/
def typeNameOf : Value → String
  | .str _ => "string"
  | .intV _ => "int"
  | .boolV _ => "bool"
  | .structV tname _ _ _ => tname
  | _ => ""

/-- Modelled from the spec: the field-descriptor list the external
`getTypeInfo` returns for a value (empty for non-structs); descriptor
namespaces are taken as already resolved, so the ambient-namespace
argument of the source call is unused. -/
def structFields : Value → FieldList
  | .structV _ _ _ flds => flds
  | _ => .nil

/-- `tinfo.xmlname`, the XMLName designator descriptor (if any). -/
def xmlnameTagOf : Value → Option XmlNameInfo
  | .structV _ xn _ _ => xn
  | _ => none

/-- `xmlname.value(val).Interface().(Name)`: the runtime `xml.Name` held
by the XMLName field, when that field has type `xml.Name`. -/
def xmlnameValOf : Value → Option NameV
  | .structV _ _ nv _ => nv
  | _ => none

/-- `vf.Interface()` followed by a dynamic type test: an interface value
exposes the value it contains. -/
def unwrapIface : Value → Value
  | .ifaceV v => v
  | v => v

/-- `isEmptyValue`. -/
def isEmptyValue : Value → Bool
  | .arr .nil => true
  | .arr _ => false
  | .mapV n => n == 0
  | .bytes b => b.isEmpty
  | .str s => s.isEmpty
  | .boolV b => !b
  | .intV n => n == 0
  | .ptrNil => true
  | .ptrV _ => false
  | .ifaceNil => true
  | .ifaceV _ => false
  | _ => false

/-- The guard of `parentStack.push` in `marshalStruct`:
`vf.Kind() != Ptr && vf.Kind() != Interface || !vf.IsNil()`. -/
def pushCond : Value → Bool
  | .ptrNil => false
  | .ifaceNil => false
  | _ => true

/-! ## Errors and encoder state -/

/-- The marshalling errors of the source, with their arguments.
`outOfFuel` is the embedding's fuel-exhaustion marker, unreachable
through the exported wrappers (`runF_mono`). -/
inductive MErr where
  | unsupportedType (tname : String)
  | needsPfx (attrName elemName : String)
  | badCommentType (tname : String)
  | commentDashDash
  | outOfFuel
deriving Repr, DecidableEq

/-- Printer plus context heap: the state a marshalling step threads.
Errors carry the state reached so far, matching the Go behaviour of
leaving partially written output in the sink when an encode aborts. -/
structure EncSt where
  p : Printer
  st : CtxStore
deriving Repr, DecidableEq

/-! ## Scalar rendering -/

/-- `marshalSimple` (`time.Time` and floats are outside the modelled
universe). -/
def marshalSimple (val : Value) (p : Printer) : Except (MErr × Printer) Printer :=
  match val with
  | .intV n => .ok (p.write (toString n))
  | .str s => .ok (p.write (escapeStr s))
  | .boolV b => .ok (p.write (if b then "true" else "false"))
  | .bytes b => .ok (p.write (escapeStr b))
  | v => .error (.unsupportedType (typeNameOf v), p)

/-! ## Comments -/

/-- `strings.Index(s, "--") >= 0`, over the character list. -/
def hasDDChars : List Char → Bool
  | '-' :: '-' :: _ => true
  | _ :: rest => hasDDChars rest
  | [] => false

def hasDashDash (s : String) : Bool := hasDDChars s.data

/-- `s[len(s)-1] == '-'`. -/
def endsWithDash (s : String) : Bool := s.data.getLast? == some '-'

/-! ## Element name and namespace resolution (`marshalValue`, first half) -/

/-- The prefix written before a tag name: the explicit `pfx` wins, else a
non-empty mapped prefix. -/
def tagPfxStr (pfx mapPfx : String) : String :=
  if pfx ≠ "" then pfx ++ ":"
  else if mapPfx ≠ "" then mapPfx ++ ":"
  else ""

/-- The bytes of an `xmlns[:pfx]="uri"` declaration. -/
def nsDeclStr (pfx ns : String) : String :=
  " xmlns" ++ (if pfx ≠ "" then ":" ++ pfx else "") ++ "=\"" ++ escapeStr ns ++ "\""

/-- Steps of `marshalValue` up to choosing the element name: store the
field's namespace into the current context, apply the XMLName
designator (the tag first, then the runtime `xml.Name`), fall back to
the field descriptor's prefix/name, then to the type name.  Returns the
updated store, the explicit prefix, and the name. -/
def resolveNameNs (val : Value) (finfo : Option FieldInfo) (i : Nat)
    (st : CtxStore) : Except MErr (CtxStore × String × String) :=
  let st1 := match finfo with
    | some f => storeSetXmlns st i f.xmlns
    | none => st
  let resolved : CtxStore × String :=
    match xmlnameTagOf val with
    | some xn =>
      if xn.name ≠ "" then (storeSetXmlns st1 i xn.xmlns, xn.name)
      else
        match xmlnameValOf val with
        | some v =>
          if v.localName ≠ "" then (storeSetXmlns st1 i v.space, v.localName)
          else (st1, "")
        | none => (st1, "")
    | none => (st1, "")
  let st2 := resolved.1
  let pfxName : String × String :=
    if resolved.2 = "" then
      match finfo with
      | some f => (f.pfx, f.name)
      | none => ("", "")
    else ("", resolved.2)
  if pfxName.2 ≠ "" then .ok (st2, pfxName.1, pfxName.2)
  else if typeNameOf val ≠ "" then .ok (st2, pfxName.1, typeNameOf val)
  else .error (.unsupportedType (typeNameOf val))

/-- The attribute pre-scan of `marshalValue`: for each non-skipped
attribute field whose namespace is non-empty and unmapped, require an
explicit prefix, bind it in the current context and write its
`xmlns:pfx="uri"` declaration. -/
def attrNsScan (elemName : String) (i : Nat) :
    FieldList → EncSt → Except (MErr × EncSt) EncSt
  | .nil, e => .ok e
  | .cons fi fv rest, e =>
    if fi.mode ≠ .fAttr then attrNsScan elemName i rest e
    else if fi.omitEmpty && isEmptyValue fv then attrNsScan elemName i rest e
    else
      if fi.xmlns ≠ "" && !(ctxGet e.st i fi.xmlns).isSome then
        if fi.pfx = "" then .error (.needsPfx fi.name elemName, e)
        else
          attrNsScan elemName i rest
            { p := e.p.write (" xmlns:" ++ fi.pfx ++ "=\"" ++ escapeStr fi.xmlns ++ "\"")
              st := storeBind e.st i fi.xmlns fi.pfx }
      else attrNsScan elemName i rest e

/-- The attribute output loop of `marshalValue`: a space, the (mapped)
prefix, the name, and the scalar value in quotes. -/
def attrWrite (i : Nat) :
    FieldList → EncSt → Except (MErr × EncSt) EncSt
  | .nil, e => .ok e
  | .cons fi fv rest, e =>
    if fi.mode ≠ .fAttr then attrWrite i rest e
    else if fi.omitEmpty && isEmptyValue fv then attrWrite i rest e
    else
      match marshalSimple fv
          ((if (ctxGet e.st i fi.xmlns).getD "" ≠ ""
            then (e.p.write " ").write ((ctxGet e.st i fi.xmlns).getD "" ++ ":")
            else e.p.write " ").write (fi.name ++ "=\"")) with
      | .error (er, pe) => .error (er, { p := pe, st := e.st })
      | .ok p4 => attrWrite i rest { p := p4.write "\"", st := e.st }

/-- `marshalValue` from name resolution to just after the element's own
namespace declaration: `writeIndent(1)`, `<pfx:name`, and — exactly when
the resolved namespace is non-empty and has no mapping anywhere in the
context chain — a binding into the current node plus the
`xmlns[:pfx]="uri"` bytes.  Returns the prefix, the mapped prefix and
the name, which the close tag reuses. -/
def openElemTag (val : Value) (finfo : Option FieldInfo) (i : Nat) (e : EncSt) :
    Except (MErr × EncSt) (EncSt × String × String × String) :=
  match resolveNameNs val finfo i e.st with
  | .error er => .error (er, e)
  | .ok (st2, pfx, name) =>
    let ns := ctxXmlns st2 i
    let mapPfx := (ctxGet st2 i ns).getD ""
    let isMapped := (ctxGet st2 i ns).isSome
    let p1 := (e.p.writeIndent 1).write ("<" ++ tagPfxStr pfx mapPfx ++ name)
    if ns ≠ "" && !isMapped then
      .ok ({ p := p1.write (nsDeclStr pfx ns), st := storeBind st2 i ns pfx },
           pfx, mapPfx, name)
    else
      .ok ({ p := p1, st := st2 }, pfx, mapPfx, name)

/-- The rest of the open tag: attribute namespace scan, attribute output,
closing `>`. -/
def openElemAttrs (val : Value) (i : Nat) (name : String) (e : EncSt) :
    Except (MErr × EncSt) EncSt :=
  match attrNsScan name i (structFields val) e with
  | .error er => .error er
  | .ok e3 =>
    match attrWrite i (structFields val) e3 with
    | .error er => .error er
    | .ok e4 => .ok { p := e4.p.write ">", st := e4.st }

/-- The whole open tag of `marshalValue`. -/
def openElement (val : Value) (finfo : Option FieldInfo) (i : Nat) (e : EncSt) :
    Except (MErr × EncSt) (EncSt × String × String × String) :=
  match openElemTag val finfo i e with
  | .error er => .error er
  | .ok (e2, pfx, mapPfx, name) =>
    match openElemAttrs val i name e2 with
    | .error er => .error er
    | .ok e3 => .ok (e3, pfx, mapPfx, name)

/-- The close tag of `marshalValue`, reusing the prefix chosen for the
open tag. -/
def closeElement (pfx mapPfx name : String) (p : Printer) : Printer :=
  (p.writeIndent (-1)).write ("</" ++ tagPfxStr pfx mapPfx ++ name ++ ">")

/-! ## The parent-path stack (`parentStack`) -/

/-- The `split` loop of `parentStack.trim`. -/
def commonPrefixLen : List String → List String → Nat
  | a :: as, b :: bs => if a = b then commonPrefixLen as bs + 1 else 0
  | _, _ => 0

/-- Close tags for the given names, in the order given. -/
def closeTags (p : Printer) : List String → Printer
  | [] => p
  | n :: rest => closeTags ((p.writeIndent (-1)).write ("</" ++ n ++ ">")) rest

/-- `parentStack.trim`: close every open synthetic parent beyond the
longest common prefix with `parents` (deepest first), returning the new
stack. -/
def psTrim (p : Printer) (stack parents : List String) : Printer × List String :=
  let split := commonPrefixLen parents stack
  (closeTags p ((stack.drop split).reverse), parents.take split)

/-- Open tags for the given names, in the order given. -/
def openTags (p : Printer) : List String → Printer
  | [] => p
  | n :: rest => openTags ((p.writeIndent 1).write ("<" ++ n ++ ">")) rest

/-- `parentStack.push`. -/
def psPush (p : Printer) (stack toOpen : List String) : Printer × List String :=
  (openTags p toOpen, stack ++ toOpen)

/-- The trim-then-push reconciliation of one element-mode field in
`marshalStruct`: close past the common prefix, then open the missing
path segments when the value passes the push guard. -/
def trimPush (p : Printer) (stack parents : List String) (vf : Value) :
    Printer × List String :=
  if (psTrim p stack parents).2.length < parents.length && pushCond vf then
    psPush (psTrim p stack parents).1 (psTrim p stack parents).2
      (parents.drop (psTrim p stack parents).2.length)
  else psTrim p stack parents

/-! ## Per-field pre-processing (`marshalStruct` switch) -/

/-- The outcome of the `switch finfo.flags & fMode` body for one struct
field, before the shared `marshalValue` call: an error, a `continue`, or
falling through to `marshalValue` with a possibly updated parent stack. -/
inductive FieldPre where
  | err (er : MErr) (e : EncSt)
  | skip (e : EncSt)
  | proceed (e : EncSt) (stack : List String)

/-- The switch body of `marshalStruct` for one non-attribute field. -/
def fieldPre (tname : String) (fi : FieldInfo) (vf : Value) (e : EncSt)
    (stack : List String) : FieldPre :=
  match fi.mode with
  | .fCharData =>
    let p2 := match vf with
      | .intV n => e.p.write (escapeStr (toString n))
      | .boolV b => e.p.write (escapeStr (if b then "true" else "false"))
      | .str s => e.p.write (escapeStr s)
      | .bytes b => e.p.write (escapeStr b)
      | _ => e.p
    .skip { p := p2, st := e.st }
  | .fComment =>
    match vf with
    | .str s =>
      if s.length = 0 then .skip e
      else
        let p1 := (e.p.writeIndent 0).write "<!--"
        let dd := hasDashDash s
        let dl := endsWithDash s
        let p2 := if dd then p1 else p1.write s
        if dd then .err .commentDashDash { p := p2, st := e.st }
        else
          let p3 := if dl then p2.write " " else p2
          .skip { p := p3.write "-->", st := e.st }
    | .bytes b =>
      if b.length = 0 then .skip e
      else
        let p1 := (e.p.writeIndent 0).write "<!--"
        let dd := hasDashDash b
        let dl := endsWithDash b
        let p2 := if dd then p1 else p1.write b
        if dd then .err .commentDashDash { p := p2, st := e.st }
        else
          let p3 := if dl then p2.write " " else p2
          .skip { p := p3.write "-->", st := e.st }
    | _ => .err (.badCommentType tname) e
  | .fInnerXml =>
    match unwrapIface vf with
    | .bytes b => .skip { p := e.p.write b, st := e.st }
    | .str s => .skip { p := e.p.write s, st := e.st }
    | _ => .proceed e stack
  | .fElement | .fElementAny =>
    .proceed { p := (trimPush e.p stack fi.parents vf).1, st := e.st }
      (trimPush e.p stack fi.parents vf).2
  | .fAttr => .proceed e stack

/-! ## The recursive core -/

mutual
/-- Node count of a value; the canonical fuel for the interpreter. -/
def sizeV : Value → Nat
  | .invalid => 1
  | .ptrNil => 1
  | .ifaceNil => 1
  | .bytes _ => 1
  | .str _ => 1
  | .intV _ => 1
  | .boolV _ => 1
  | .mapV _ => 1
  | .ptrV v => sizeV v + 1
  | .ifaceV v => sizeV v + 1
  | .arr l => sizeVL l + 1
  | .structV _ _ _ fl => sizeFL fl + 1

def sizeVL : ValueList → Nat
  | .nil => 1
  | .cons v rest => sizeV v + sizeVL rest + 1

def sizeFL : FieldList → Nat
  | .nil => 1
  | .cons _ v rest => sizeV v + sizeFL rest + 1
end

/-- The mutually recursive obligations of the marshaller, as one sum:
`value` is `marshalValue`, `listJ` its slice/array loop, `fieldsJ` the
field loop of `marshalStruct` (whose result carries the final parent
stack; the caller performs the closing `s.trim(nil)`). -/
inductive Job where
  | value (val : Value) (finfo : Option FieldInfo) (i : Nat)
  | listJ (elems : ValueList) (finfo : Option FieldInfo) (i : Nat)
  | fieldsJ (tname : String) (flds : FieldList) (i : Nat) (stack : List String)

def jobSize : Job → Nat
  | .value v _ _ => sizeV v
  | .listJ l _ _ => sizeVL l
  | .fieldsJ _ fl _ _ => sizeFL fl

/-- The fuel-indexed interpreter for the recursive core, structurally
recursive on the fuel so that it computes by kernel reduction.  Every
recursive call strictly decreases `jobSize`, so a fuel of `jobSize` is
always enough (`runF_mono`); the exported wrappers supply it and the
`outOfFuel` branch is unreachable through them. -/
def runF : Nat → Job → EncSt → Except (MErr × EncSt) (EncSt × List String)
  | 0, _, e => .error (.outOfFuel, e)
  | fuel + 1, .value val finfo i, e =>
    match val with
    | .invalid => .ok (e, [])
    | val =>
      if (match finfo with
          | some f => f.omitEmpty && isEmptyValue val
          | none => false) then .ok (e, [])
      else
        match val with
        | .ptrNil => .ok (e, [])
        | .ifaceNil => .ok (e, [])
        | .ptrV v2 => runF fuel (.value v2 finfo i) e
        | .ifaceV v2 => runF fuel (.value v2 finfo i) e
        | .arr elems => runF fuel (.listJ elems finfo i) e
        | val =>
          match openElement val finfo i e with
          | .error er => .error er
          | .ok (e1, pfx, mapPfx, name) =>
            let bodyRes : Except (MErr × EncSt) EncSt :=
              match val with
              | .structV tname _ _ flds =>
                match runF fuel (.fieldsJ tname flds i []) e1 with
                | .error er => .error er
                | .ok (e2, stack2) =>
                  .ok { p := (psTrim e2.p stack2 []).1, st := e2.st }
              | sv =>
                match marshalSimple sv e1.p with
                | .error (er, pe) => .error (er, { p := pe, st := e1.st })
                | .ok p2 => .ok { p := p2, st := e1.st }
            match bodyRes with
            | .error er => .error er
            | .ok e2 =>
              .ok ({ p := closeElement pfx mapPfx name e2.p, st := e2.st }, [])
  | fuel + 1, .listJ elems finfo i, e =>
    match elems with
    | .nil => .ok (e, [])
    | .cons v rest =>
      match runF fuel (.value v finfo e.st.length)
          { p := e.p, st := e.st ++ [newCtxNode i] } with
      | .error er => .error er
      | .ok (e2, _) => runF fuel (.listJ rest finfo i) e2
  | fuel + 1, .fieldsJ tname flds i stack, e =>
    match flds with
    | .nil => .ok (e, stack)
    | .cons fi vf rest =>
      if fi.mode = .fAttr then runF fuel (.fieldsJ tname rest i stack) e
      else
        match fieldPre tname fi vf e stack with
        | .err er e2 => .error (er, e2)
        | .skip e2 => runF fuel (.fieldsJ tname rest i stack) e2
        | .proceed e2 stack2 =>
          match runF fuel (.value vf (some fi) e2.st.length)
              { p := e2.p, st := e2.st ++ [newCtxNode i] } with
          | .error er => .error er
          | .ok (e3, _) => runF fuel (.fieldsJ tname rest i stack2) e3

/-! ## Exported wrappers -/

/-- `printer.marshalValue(val, finfo, nsctx)` where `nsctx` is the node
at index `i` of the store. -/
def marshalValue (val : Value) (finfo : Option FieldInfo) (i : Nat)
    (e : EncSt) : Except (MErr × EncSt) EncSt :=
  match runF (sizeV val) (.value val finfo i) e with
  | .ok (e2, _) => .ok e2
  | .error er => .error er

/-- The slice/array element loop of `marshalValue`: each element is
encoded with the same field descriptor and a fresh child context. -/
def marshalList (elems : ValueList) (finfo : Option FieldInfo) (i : Nat)
    (e : EncSt) : Except (MErr × EncSt) EncSt :=
  match runF (sizeVL elems) (.listJ elems finfo i) e with
  | .ok (e2, _) => .ok e2
  | .error er => .error er

/-- The field loop of `printer.marshalStruct`, threading the parent
stack; the caller performs the closing `s.trim(nil)`. -/
def marshalFields (tname : String) (flds : FieldList) (i : Nat) (e : EncSt)
    (stack : List String) : Except (MErr × EncSt) (EncSt × List String) :=
  runF (sizeFL flds) (.fieldsJ tname flds i stack) e

/-- `printer.marshalStruct`: the field loop followed by `s.trim(nil)`. -/
def marshalStruct (tname : String) (flds : FieldList) (i : Nat)
    (e : EncSt) : Except (MErr × EncSt) EncSt :=
  match marshalFields tname flds i e [] with
  | .error er => .error er
  | .ok (e2, stack2) => .ok { p := (psTrim e2.p stack2 []).1, st := e2.st }

/-! ## Encoder and entry points -/

def newPrinter : Printer :=
  { out := "", prefixStr := "", indent := "", depth := 0
    indentedIn := false, putNewline := false }

/-- An `Encoder`.  Between `Encode` calls only the root context node is
reachable from the encoder, so the heap is modelled by that node alone
and each call restarts from the two-node store `[root, fresh child]`. -/
structure GoEncoder where
  p : Printer
  root : CtxNode
deriving Repr, DecidableEq

def NewEncoder : GoEncoder := { p := newPrinter, root := rootCtxNode }

/-- `Encoder.Indent`. -/
def encoderIndent (enc : GoEncoder) (pre ind : String) : GoEncoder :=
  { enc with p := { enc.p with prefixStr := pre, indent := ind } }

/-- `Encoder.Encode`: marshal into a fresh child (index 1) of the root
(index 0). -/
def encoderEncode (enc : GoEncoder) (v : Value) :
    Except (MErr × GoEncoder) GoEncoder :=
  let st0 : CtxStore := [enc.root, newCtxNode 0]
  match marshalValue v none 1 { p := enc.p, st := st0 } with
  | .ok e2 => .ok { p := e2.p, root := (e2.st[0]?).getD enc.root }
  | .error (er, e2) => .error (er, { p := e2.p, root := (e2.st[0]?).getD enc.root })

/-- `Marshal`. -/
def Marshal (v : Value) : Except MErr String :=
  match encoderEncode NewEncoder v with
  | .ok enc => .ok enc.p.out
  | .error (er, _) => .error er

/-- `MarshalIndent`. -/
def MarshalIndent (v : Value) (pre ind : String) : Except MErr String :=
  match encoderEncode (encoderIndent NewEncoder pre ind) v with
  | .ok enc => .ok enc.p.out
  | .error (er, _) => .error er

/-! ## Fuel elimination for the chain walks -/

theorem ctxGetF_eq (st : CtxStore) (k : String) :
    ∀ i fuel, i < fuel → ctxGetF fuel st i k = ctxGet st i k := by
  intro i
  induction i using Nat.strong_induction_on with
  | _ i ih =>
    intro fuel hf
    match fuel, hf with
    | fuel + 1, _ =>
      show ctxGetF (fuel + 1) st i k = ctxGetF (i + 1) st i k
      cases hsi : st[i]? with
      | none => simp only [ctxGetF, hsi]
      | some n =>
        cases hp : pfxGet n.pfxmap k with
        | some v => simp only [ctxGetF, hsi, hp]
        | none =>
          by_cases hlt : n.parent < i
          · simp only [ctxGetF, hsi, hp, hlt, if_true]
            rw [ih n.parent hlt fuel (by omega), ih n.parent hlt i hlt]
          · simp only [ctxGetF, hsi, hp, hlt, if_false]

theorem rootedF_eq (st : CtxStore) :
    ∀ i fuel, i < fuel → rootedF fuel st i = rooted st i := by
  intro i
  induction i using Nat.strong_induction_on with
  | _ i ih =>
    intro fuel hf
    match fuel, hf with
    | fuel + 1, _ =>
      show rootedF (fuel + 1) st i = rootedF (i + 1) st i
      by_cases hi : i = 0
      · simp only [rootedF, hi, if_true]
      · cases hsi : st[i]? with
        | none => simp only [rootedF, hi, if_false, hsi]
        | some n =>
          by_cases hlt : n.parent < i
          · simp only [rootedF, hi, if_false, hsi]
            rw [ih n.parent hlt fuel (by omega), ih n.parent hlt i hlt]
          · simp only [rootedF, hi, if_false, hsi, hlt, decide_False,
              Bool.false_and]

theorem chainNodesF_eq (st : CtxStore) :
    ∀ i fuel, i < fuel → chainNodesF fuel st i = chainNodes st i := by
  intro i
  induction i using Nat.strong_induction_on with
  | _ i ih =>
    intro fuel hf
    match fuel, hf with
    | fuel + 1, _ =>
      show chainNodesF (fuel + 1) st i = chainNodesF (i + 1) st i
      cases hsi : st[i]? with
      | none => simp only [chainNodesF, hsi]
      | some n =>
        by_cases hlt : n.parent < i
        · simp only [chainNodesF, hsi, hlt, if_true]
          rw [ih n.parent hlt fuel (by omega), ih n.parent hlt i hlt]
        · simp only [chainNodesF, hsi, hlt, if_false]

/-! ## Lookup laws -/

theorem ctxGet_local (st : CtxStore) (i : Nat) (n : CtxNode) (k v : String)
    (hsi : st[i]? = some n) (hp : pfxGet n.pfxmap k = some v) :
    ctxGet st i k = some v := by
  show ctxGetF (i + 1) st i k = some v
  simp only [ctxGetF, hsi, hp]

theorem ctxGet_parent (st : CtxStore) (i : Nat) (n : CtxNode) (k : String)
    (hsi : st[i]? = some n) (hp : pfxGet n.pfxmap k = none)
    (hlt : n.parent < i) :
    ctxGet st i k = ctxGet st n.parent k := by
  show ctxGetF (i + 1) st i k = _
  simp only [ctxGetF, hsi, hp, hlt, if_true]
  exact ctxGetF_eq st k n.parent i hlt

theorem ctxGet_stop (st : CtxStore) (i : Nat) (n : CtxNode) (k : String)
    (hsi : st[i]? = some n) (hp : pfxGet n.pfxmap k = none)
    (hge : ¬ n.parent < i) :
    ctxGet st i k = none := by
  show ctxGetF (i + 1) st i k = none
  simp only [ctxGetF, hsi, hp, hge, if_false]

/-- Any key bound in the root node's map is found from every rooted
context. -/
theorem ctxGet_isSome_of_rooted (st : CtxStore) (k v : String)
    (hroot : pfxGet rootCtxNode.pfxmap k = some v) :
    ∀ i, rooted st i = true → (ctxGet st i k).isSome := by
  intro i
  induction i using Nat.strong_induction_on with
  | _ i ih =>
    intro hr
    by_cases hi : i = 0
    · subst hi
      have h0 : st[0]? = some rootCtxNode := by
        have h := hr
        simp only [rooted, rootedF, if_true, beq_iff_eq] at h
        exact h
      rw [ctxGet_local st 0 rootCtxNode k v h0 hroot]
      rfl
    · have hr' := hr
      simp only [rooted, rootedF, hi, if_false] at hr'
      cases hsi : st[i]? with
      | none => rw [hsi] at hr'; simp at hr'
      | some n =>
        rw [hsi] at hr'
        simp only [Bool.and_eq_true, decide_eq_true_eq] at hr'
        obtain ⟨hlt, h2⟩ := hr'
        have hrec : rooted st n.parent = true := by
          rwa [rootedF_eq st n.parent i hlt] at h2
        cases hp : pfxGet n.pfxmap k with
        | some w => simp [ctxGet_local st i n k w hsi hp]
        | none =>
          rw [ctxGet_parent st i n k hsi hp hlt]
          exact ih n.parent hlt hrec

/-- If no node of the chain binds `k`, the lookup fails. -/
theorem ctxGet_none_of_chain (st : CtxStore) (k : String) :
    ∀ i, (∀ n ∈ chainNodes st i, pfxGet n.pfxmap k = none) →
      ctxGet st i k = none := by
  intro i
  induction i using Nat.strong_induction_on with
  | _ i ih =>
    intro hall
    cases hsi : st[i]? with
    | none =>
      show ctxGetF (i + 1) st i k = none
      simp only [ctxGetF, hsi]
    | some n =>
      have hmem : n ∈ chainNodes st i := by
        simp only [chainNodes, chainNodesF, hsi]
        exact List.mem_cons_self n _
      have hp : pfxGet n.pfxmap k = none := hall n hmem
      by_cases hlt : n.parent < i
      · rw [ctxGet_parent st i n k hsi hp hlt]
        refine ih n.parent hlt ?_
        intro m hm
        refine hall m ?_
        simp only [chainNodes, chainNodesF, hsi, hlt, if_true]
        rw [chainNodesF_eq st n.parent i hlt]
        exact List.mem_cons_of_mem n hm
      · exact ctxGet_stop st i n k hsi hp hlt

/-! ## Claim C7: scoped lookup with self-parented root -/

/-- C7: for every context node, `Get(uri)` returns the local mapping
when one exists, otherwise the nearest ancestor's mapping, and
`("", false)` when no node in the chain defines the URI; the root's
self-parent terminates the walk; the root is pre-populated with exactly
the two reserved bindings, so `Get` on those URIs succeeds in every
rooted context. -/
theorem claim_ctxGet_chain_spec :
    (∀ (st : CtxStore) (i : Nat) (n : CtxNode) (k v : String),
        st[i]? = some n → pfxGet n.pfxmap k = some v → ctxGet st i k = some v)
  ∧ (∀ (st : CtxStore) (i : Nat) (n : CtxNode) (k : String),
        st[i]? = some n → pfxGet n.pfxmap k = none → n.parent < i →
        ctxGet st i k = ctxGet st n.parent k)
  ∧ (∀ (st : CtxStore) (i : Nat) (n : CtxNode) (k : String),
        st[i]? = some n → pfxGet n.pfxmap k = none → ¬ n.parent < i →
        ctxGet st i k = none)
  ∧ (rootCtxNode.parent = 0
      ∧ rootCtxNode.pfxmap = [(XML_NS, "xml"), (XMLNS_NS, "xmlns")]
      ∧ rootNs2Pfx = [rootCtxNode])
  ∧ (∀ (st : CtxStore) (i : Nat), rooted st i = true →
        (ctxGet st i XML_NS).isSome ∧ (ctxGet st i XMLNS_NS).isSome)
  ∧ (∀ (st : CtxStore) (i : Nat) (k : String),
        (∀ n ∈ chainNodes st i, pfxGet n.pfxmap k = none) →
        ctxGet st i k = none) := by
  refine ⟨ctxGet_local, ctxGet_parent, ctxGet_stop, ⟨rfl, rfl, rfl⟩, ?_,
    fun st i k => ctxGet_none_of_chain st k i⟩
  intro st i hr
  exact ⟨ctxGet_isSome_of_rooted st XML_NS "xml" rfl i hr,
         ctxGet_isSome_of_rooted st XMLNS_NS "xmlns" rfl i hr⟩

theorem claim_ctxGet_chain_spec_witness :
    ctxGet [rootCtxNode, { xmlns := "", pfxmap := [("u", "p")], parent := 0 }]
        1 "u" = some "p"
    ∧ (ctxGet [rootCtxNode, newCtxNode 0] 1 XML_NS).isSome
    ∧ ctxGet [rootCtxNode, newCtxNode 0] 1 "urn:x" = none :=
  ⟨claim_ctxGet_chain_spec.1 _ 1 _ "u" "p" rfl rfl,
   (claim_ctxGet_chain_spec.2.2.2.2.1 _ 1 (by decide)).1,
   claim_ctxGet_chain_spec.2.2.2.2.2 _ 1 "urn:x" (by decide)⟩

/-! ## Claim C5: minimal end-to-end XMLName case -/

/-- C5: encoding a struct whose sole field is an XMLName designator with
namespace `xmpp1` and local name `error` produces exactly
`<error xmlns="xmpp1"></error>`: a full open tag and a separate close
tag, never a collapsed self-closing empty-element tag. -/
theorem claim_xmlname_empty_struct :
    Marshal (.structV "S" (some { name := "error", xmlns := "xmpp1" }) none .nil)
      = .ok "<error xmlns=\"xmpp1\"></error>" := rfl

/-! ## Claim C9: indentation disabled when prefix and unit are empty -/

/-- C9: with empty line prefix and empty indent unit, indentation is a
no-op: `MarshalIndent v "" ""` produces exactly the bytes of
`Marshal v`, and `writeIndent` leaves the printer untouched. -/
theorem claim_indent_disabled :
    (∀ v : Value, MarshalIndent v "" "" = Marshal v)
  ∧ (∀ (p : Printer) (d : Int), p.prefixStr = "" → p.indent = "" →
        p.writeIndent d = p) := by
  constructor
  · intro v; rfl
  · intro p d h1 h2
    unfold Printer.writeIndent
    rw [h1, h2]
    rfl

theorem claim_indent_disabled_witness :
    MarshalIndent (.str "x") "" "" = Marshal (.str "x")
    ∧ newPrinter.writeIndent 5 = newPrinter :=
  ⟨claim_indent_disabled.1 (.str "x"),
   claim_indent_disabled.2 newPrinter 5 rfl rfl⟩


/-! ## Fuel irrelevance of the interpreter -/

theorem sizeV_pos (v : Value) : 1 ≤ sizeV v := by
  cases v <;> simp [sizeV]

theorem sizeVL_pos (l : ValueList) : 1 ≤ sizeVL l := by
  cases l <;> simp [sizeVL]

theorem sizeFL_pos (fl : FieldList) : 1 ≤ sizeFL fl := by
  cases fl <;> simp [sizeFL]

theorem jobSize_pos (job : Job) : 1 ≤ jobSize job := by
  cases job with
  | value v _ _ => exact sizeV_pos v
  | listJ l _ _ => exact sizeVL_pos l
  | fieldsJ _ fl _ _ => exact sizeFL_pos fl

/-- Above `jobSize`, the fuel is irrelevant: every recursive call of
`runF` strictly decreases `jobSize`, so any two sufficient fuels give
the same result. -/
theorem runF_mono : ∀ (n : Nat) (job : Job), jobSize job = n →
    ∀ (fuel1 fuel2 : Nat) (e : EncSt), n ≤ fuel1 → n ≤ fuel2 →
    runF fuel1 job e = runF fuel2 job e := by
  intro n
  induction n using Nat.strong_induction_on with
  | _ n ih =>
    intro job hjs fuel1 fuel2 e h1 h2
    have hpos : 1 ≤ n := hjs ▸ jobSize_pos job
    obtain ⟨a, rfl⟩ : ∃ a, fuel1 = a + 1 := ⟨fuel1 - 1, by omega⟩
    obtain ⟨b, rfl⟩ : ∃ b, fuel2 = b + 1 := ⟨fuel2 - 1, by omega⟩
    cases job with
    | value val finfo i =>
      cases val with
      | invalid => rfl
      | ptrNil => rfl
      | ifaceNil => rfl
      | bytes d => rfl
      | str s => rfl
      | intV m => rfl
      | boolV bb => rfl
      | mapV m => rfl
      | ptrV v2 =>
        have hlt : sizeV v2 < n := by simp [jobSize, sizeV] at hjs; omega
        have heq := ih (sizeV v2) hlt (.value v2 finfo i) rfl a b e
          (by simp [jobSize, sizeV] at hjs; omega)
          (by simp [jobSize, sizeV] at hjs; omega)
        simp only [runF]
        rw [heq]
      | ifaceV v2 =>
        have hlt : sizeV v2 < n := by simp [jobSize, sizeV] at hjs; omega
        have heq := ih (sizeV v2) hlt (.value v2 finfo i) rfl a b e
          (by simp [jobSize, sizeV] at hjs; omega)
          (by simp [jobSize, sizeV] at hjs; omega)
        simp only [runF]
        rw [heq]
      | arr elems =>
        have hlt : sizeVL elems < n := by simp [jobSize, sizeV] at hjs; omega
        have heq := ih (sizeVL elems) hlt (.listJ elems finfo i) rfl a b e
          (by simp [jobSize, sizeV] at hjs; omega)
          (by simp [jobSize, sizeV] at hjs; omega)
        simp only [runF]
        rw [heq]
      | structV tname xn nv flds =>
        have hlt : sizeFL flds < n := by simp [jobSize, sizeV] at hjs; omega
        simp only [runF]
        refine if_congr Iff.rfl rfl ?_
        cases hoe : openElement (.structV tname xn nv flds) finfo i e with
        | error er => rfl
        | ok r =>
          obtain ⟨e1, pfx, mapPfx, name⟩ := r
          have heq := ih (sizeFL flds) hlt (.fieldsJ tname flds i []) rfl a b e1
            (by simp [jobSize, sizeV] at hjs; omega)
            (by simp [jobSize, sizeV] at hjs; omega)
          dsimp only
          rw [heq]
    | listJ elems finfo i =>
      cases elems with
      | nil => rfl
      | cons v rest =>
        have hs : sizeV v + sizeVL rest + 1 = n := by
          simpa [jobSize, sizeVL] using hjs
        have hltv : sizeV v < n := by omega
        have hltr : sizeVL rest < n := by omega
        simp only [runF]
        rw [ih (sizeV v) hltv (.value v finfo e.st.length) rfl a b
          { p := e.p, st := e.st ++ [newCtxNode i] } (by omega) (by omega)]
        cases hres : runF b (.value v finfo e.st.length)
            { p := e.p, st := e.st ++ [newCtxNode i] } with
        | error er => rfl
        | ok pr =>
          obtain ⟨e2, s2⟩ := pr
          exact ih (sizeVL rest) hltr (.listJ rest finfo i) rfl a b e2
            (by omega) (by omega)
    | fieldsJ tname flds i stack =>
      cases flds with
      | nil => rfl
      | cons fi vf rest =>
        have hs : sizeV vf + sizeFL rest + 1 = n := by
          simpa [jobSize, sizeFL] using hjs
        have hltv : sizeV vf < n := by omega
        have hltr : sizeFL rest < n := by omega
        by_cases hattr : fi.mode = .fAttr
        · simp only [runF, hattr, if_true]
          exact ih (sizeFL rest) hltr (.fieldsJ tname rest i stack) rfl a b e
            (by omega) (by omega)
        · simp only [runF, hattr, if_false]
          cases hpre : fieldPre tname fi vf e stack with
          | err er e2 => rfl
          | skip e2 =>
            exact ih (sizeFL rest) hltr (.fieldsJ tname rest i stack) rfl a b e2
              (by omega) (by omega)
          | proceed e2 stack2 =>
            dsimp only
            rw [ih (sizeV vf) hltv (.value vf (some fi) e2.st.length) rfl a b
              { p := e2.p, st := e2.st ++ [newCtxNode i] } (by omega) (by omega)]
            cases hres : runF b (.value vf (some fi) e2.st.length)
                { p := e2.p, st := e2.st ++ [newCtxNode i] } with
            | error er => rfl
            | ok pr =>
              obtain ⟨e3, s3⟩ := pr
              exact ih (sizeFL rest) hltr (.fieldsJ tname rest i stack2) rfl a b e3
                (by omega) (by omega)

/-! ## Claim C6: dispatch order of `marshalValue` -/

/-- C6: dispatch order with first match winning: an invalid value
produces no output and succeeds; an omit-if-empty field with a
semantically empty value produces no output; a nil pointer or interface
produces no output, a non-nil one unwraps one layer and recurses with
the same field descriptor and the same context; a non-byte slice/array
emits no enclosing tag and encodes each element with the same field
descriptor and a fresh child context per element. -/
theorem claim_marshalValue_dispatch :
    (∀ (finfo : Option FieldInfo) (i : Nat) (e : EncSt),
        marshalValue .invalid finfo i e = .ok e)
  ∧ (∀ (f : FieldInfo) (v : Value) (i : Nat) (e : EncSt),
        f.omitEmpty = true → isEmptyValue v = true →
        marshalValue v (some f) i e = .ok e)
  ∧ (∀ (finfo : Option FieldInfo) (i : Nat) (e : EncSt),
        marshalValue .ptrNil finfo i e = .ok e
        ∧ marshalValue .ifaceNil finfo i e = .ok e)
  ∧ (∀ (v : Value) (finfo : Option FieldInfo) (i : Nat) (e : EncSt),
        marshalValue (.ptrV v) finfo i e = marshalValue v finfo i e
        ∧ marshalValue (.ifaceV v) finfo i e = marshalValue v finfo i e)
  ∧ (∀ (elems : ValueList) (i : Nat) (e : EncSt),
        marshalValue (.arr elems) none i e = marshalList elems none i e)
  ∧ (∀ (f : FieldInfo) (elems : ValueList) (i : Nat) (e : EncSt),
        (f.omitEmpty && isEmptyValue (.arr elems)) = false →
        marshalValue (.arr elems) (some f) i e = marshalList elems (some f) i e)
  ∧ (∀ (finfo : Option FieldInfo) (i : Nat) (e : EncSt),
        marshalList .nil finfo i e = .ok e)
  ∧ (∀ (v : Value) (rest : ValueList) (finfo : Option FieldInfo)
        (i : Nat) (e : EncSt),
        marshalList (.cons v rest) finfo i e
          = match marshalValue v finfo e.st.length
                { p := e.p, st := e.st ++ [newCtxNode i] } with
            | .error er => .error er
            | .ok e2 => marshalList rest finfo i e2) := by
  refine ⟨fun finfo i e => rfl, ?_, ?_, ?_, ?_, ?_, fun finfo i e => rfl, ?_⟩
  · intro f v i e h1 h2
    cases v <;> simp_all [marshalValue, runF, sizeV, isEmptyValue]
  · intro finfo i e
    cases finfo <;> simp [marshalValue, runF, sizeV, isEmptyValue]
  · intro v finfo i e
    cases finfo <;> simp [marshalValue, runF, sizeV, isEmptyValue]
  · intro elems i e
    simp [marshalValue, marshalList, runF, sizeV]
  · intro f elems i e h
    simp [marshalValue, marshalList, runF, sizeV, h]
  · intro v rest finfo i e
    simp only [marshalList, marshalValue, sizeVL, runF]
    rw [runF_mono (sizeV v) (.value v finfo e.st.length) rfl
      (sizeV v + sizeVL rest) (sizeV v)
      { p := e.p, st := e.st ++ [newCtxNode i] } (by omega) le_rfl]
    cases hres : runF (sizeV v) (.value v finfo e.st.length)
        { p := e.p, st := e.st ++ [newCtxNode i] } with
    | error er => rfl
    | ok pr =>
      obtain ⟨e2, s2⟩ := pr
      dsimp only
      rw [runF_mono (sizeVL rest) (.listJ rest finfo i) rfl
        (sizeV v + sizeVL rest) (sizeVL rest) e2 (by omega) le_rfl]

/-- A field descriptor with the omit-if-empty flag set, for witnesses. -/
def exOmitFi : FieldInfo :=
  { name := "f", xmlns := "", pfx := "", mode := .fElement
    omitEmpty := true, parents := [] }

/-- The encoder state at the start of an `Encode` call. -/
def exEncSt : EncSt := { p := newPrinter, st := [rootCtxNode, newCtxNode 0] }

theorem claim_marshalValue_dispatch_witness :
    marshalValue (.str "") (some exOmitFi) 1 exEncSt = .ok exEncSt
    ∧ marshalValue (.arr (.cons (.str "a") .nil)) (some exOmitFi) 1 exEncSt
        = marshalList (.cons (.str "a") .nil) (some exOmitFi) 1 exEncSt :=
  ⟨claim_marshalValue_dispatch.2.1 exOmitFi (.str "") 1 exEncSt rfl rfl,
   claim_marshalValue_dispatch.2.2.2.2.2.1 exOmitFi (.cons (.str "a") .nil)
     1 exEncSt rfl⟩

/-! ## Parent-stack laws -/

/-- Concatenation of a list of strings (left to right). -/
def concatAll : List String → String
  | [] => ""
  | s :: rest => s ++ concatAll rest

theorem writeIndent_noop (p : Printer) (d : Int)
    (h1 : p.prefixStr = "") (h2 : p.indent = "") :
    p.writeIndent d = p := by
  unfold Printer.writeIndent
  rw [h1, h2]
  rfl

/-- The bytes closing the given tag names in order. -/
def closeSeq (names : List String) : String :=
  concatAll (names.map (fun n => "</" ++ n ++ ">"))

theorem closeTags_out (names : List String) : ∀ (p : Printer),
    p.prefixStr = "" → p.indent = "" →
    closeTags p names = { p with out := p.out ++ closeSeq names } := by
  induction names with
  | nil =>
    intro p h1 h2
    simp [closeTags, closeSeq, concatAll]
  | cons n rest ih =>
    intro p h1 h2
    simp only [closeTags]
    rw [writeIndent_noop p (-1) h1 h2]
    rw [ih (p.write ("</" ++ n ++ ">")) h1 h2]
    simp [Printer.write, closeSeq, concatAll, String.append_assoc]

theorem take_append_drop_len {α : Type} (k : Nat) (l : List α) :
    l.take k ++ l.drop (l.take k).length = l := by
  rcases le_total k l.length with h | h
  · rw [List.length_take, min_eq_left h, List.take_append_drop]
  · rw [List.take_of_length_le h, List.drop_length, List.append_nil]

/-- After the trim/push reconciliation of an element-mode field whose
value passes the push guard, the open synthetic-parent chain is exactly
the field's path. -/
theorem trimPush_stack (p : Printer) (stack parents : List String) (vf : Value)
    (hp : pushCond vf = true) :
    (trimPush p stack parents vf).2 = parents := by
  unfold trimPush
  by_cases hlen : (psTrim p stack parents).2.length < parents.length
  · simp only [hlen, hp, decide_True, Bool.and_self, if_true, psPush]
    exact take_append_drop_len _ _
  · simp only [hlen, decide_False, Bool.false_and, if_false]
    have hk : (psTrim p stack parents).2
        = parents.take (commonPrefixLen parents stack) := rfl
    rw [hk, List.length_take] at hlen
    rw [hk]
    exact List.take_of_length_le (by omega)

theorem fieldPre_element_stack (tname : String) (fi : FieldInfo) (vf : Value)
    (e : EncSt) (stack : List String)
    (hm : fi.mode = .fElement ∨ fi.mode = .fElementAny)
    (hp : pushCond vf = true) :
    fieldPre tname fi vf e stack
      = .proceed { p := (trimPush e.p stack fi.parents vf).1, st := e.st }
          fi.parents := by
  rcases hm with hm | hm <;>
    simp only [fieldPre, hm, trimPush_stack e.p stack fi.parents vf hp]
theorem psTrim_eq (p : Printer) (stack parents : List String)
    (h1 : p.prefixStr = "") (h2 : p.indent = "") :
    psTrim p stack parents
      = ({ p with out := p.out ++ closeSeq ((stack.drop (commonPrefixLen parents stack)).reverse) },
         parents.take (commonPrefixLen parents stack)) := by
  have h := closeTags_out ((stack.drop (commonPrefixLen parents stack)).reverse)
    p h1 h2
  simp only [psTrim]
  rw [h]

/-! ## Claim C3: shared synthetic parents for nested paths -/

/-- Field `b` with nested path `a>b`. -/
def fiB1 : FieldInfo :=
  { name := "b", xmlns := "", pfx := "", mode := .fElement
    omitEmpty := false, parents := ["a"] }

/-- Field `c` with nested path `a>c`. -/
def fiC1 : FieldInfo :=
  { name := "c", xmlns := "", pfx := "", mode := .fElement
    omitEmpty := false, parents := ["a"] }

/-- C3: fields with nested paths `a>b`, `a>b`, `a>c` produce exactly one
`<a>`/`</a>` pair with all three field elements inside; in general,
after the trim/push reconciliation the stack of open synthetic parents
equals the incoming field's path (so the longest common prefix stays
open), and `trim` closes exactly the segments beyond the common prefix,
deepest first — with `trim(nil)` after the last field closing them
all. -/
theorem claim_nested_paths :
    (Marshal (.structV "R" none none
        (.cons fiB1 (.intV 1) (.cons fiB1 (.intV 2) (.cons fiC1 (.intV 3) .nil))))
      = .ok "<R><a><b>1</b><b>2</b><c>3</c></a></R>")
  ∧ (∀ (tname : String) (fi : FieldInfo) (vf : Value) (e : EncSt)
        (stack : List String),
        fi.mode = .fElement ∨ fi.mode = .fElementAny → pushCond vf = true →
        fieldPre tname fi vf e stack
          = .proceed { p := (trimPush e.p stack fi.parents vf).1, st := e.st }
              fi.parents)
  ∧ (∀ (p : Printer) (stack parents : List String),
        p.prefixStr = "" → p.indent = "" →
        psTrim p stack parents
          = ({ p with out := p.out ++ closeSeq ((stack.drop (commonPrefixLen parents stack)).reverse) },
             parents.take (commonPrefixLen parents stack))) :=
  ⟨rfl, fieldPre_element_stack, psTrim_eq⟩

theorem claim_nested_paths_witness :
    fieldPre "R" fiB1 (.intV 1) exEncSt []
      = .proceed { p := newPrinter.write "<a>", st := exEncSt.st } ["a"]
    ∧ psTrim newPrinter ["a", "b"] ["a", "c"]
      = ({ newPrinter with out := "</b>" }, ["a"]) :=
  ⟨claim_nested_paths.2.1 "R" fiB1 (.intV 1) exEncSt [] (Or.inl rfl) rfl,
   claim_nested_paths.2.2 newPrinter ["a", "b"] ["a", "c"] rfl rfl⟩

/-! ## Claim C2: comments containing `--` -/

theorem hasDDChars_ne_nil {l : List Char} (h : hasDDChars l = true) :
    l ≠ [] := by
  cases l <;> simp_all [hasDDChars]

theorem length_ne_zero_of_hasDD (s : String) (h : hasDashDash s = true) :
    ¬ s.length = 0 := by
  intro h0
  refine hasDDChars_ne_nil h ?_
  exact List.length_eq_zero.mp h0

/-- C2 (amended): a comment-mode field whose string or byte-slice value
contains `--` makes the encode fail with the two-dash error, and the
field's content is not written — but the four-byte comment opener
`<!--` (plus any pending indentation) has already been written for that
field when the error is returned, so the field does contribute output
bytes. -/
theorem claim_comment_dashdash :
    (∀ (tname : String) (fi : FieldInfo) (s : String) (rest : FieldList)
        (i : Nat) (e : EncSt) (stack : List String),
        fi.mode = .fComment → hasDashDash s = true →
        marshalFields tname (.cons fi (.str s) rest) i e stack
          = .error (.commentDashDash,
              { p := (e.p.writeIndent 0).write "<!--", st := e.st }))
  ∧ (∀ (tname : String) (fi : FieldInfo) (b : String) (rest : FieldList)
        (i : Nat) (e : EncSt) (stack : List String),
        fi.mode = .fComment → hasDashDash b = true →
        marshalFields tname (.cons fi (.bytes b) rest) i e stack
          = .error (.commentDashDash,
              { p := (e.p.writeIndent 0).write "<!--", st := e.st })) := by
  constructor
  · intro tname fi s rest i e stack hmode hdd
    simp [marshalFields, sizeFL, sizeV, runF, hmode, fieldPre,
      length_ne_zero_of_hasDD s hdd, hdd]
  · intro tname fi b rest i e stack hmode hdd
    simp [marshalFields, sizeFL, sizeV, runF, hmode, fieldPre,
      length_ne_zero_of_hasDD b hdd, hdd]

/-- A comment-mode field descriptor. -/
def cmtFi : FieldInfo :=
  { name := "", xmlns := "", pfx := "", mode := .fComment
    omitEmpty := false, parents := [] }

theorem claim_comment_dashdash_witness :
    marshalFields "C" (.cons cmtFi (.str "a--b") .nil) 1 exEncSt []
      = .error (.commentDashDash,
          { p := (exEncSt.p.writeIndent 0).write "<!--", st := exEncSt.st }) :=
  claim_comment_dashdash.1 "C" cmtFi "a--b" .nil 1 exEncSt [] rfl rfl

/-- The claim as frozen is false on the code: encoding this struct whose
comment field holds `a--b` returns the two-dash error, but the bytes
written are `<C><!--`, four bytes more than the `<C>` present before
the comment field was processed — not zero additional bytes for that
field. -/
theorem claim_comment_dashdash_counterexample :
    encoderEncode NewEncoder (.structV "C" none none (.cons cmtFi (.str "a--b") .nil))
      = .error (.commentDashDash,
          { p := { out := "<C><!--", prefixStr := "", indent := "", depth := 0
                   indentedIn := false, putNewline := false }
            root := rootCtxNode })
    ∧ "<C><!--" ≠ "<C>" :=
  ⟨rfl, by decide⟩

/-! ## Claim C10: raw-inner-markup fields of non-textual type -/

/-- A value `innerxml` writes verbatim: a string or a byte slice. -/
def isRawTextual : Value → Bool
  | .bytes _ => true
  | .str _ => true
  | _ => false

/-- C10: a raw-inner-markup field whose (interface-unwrapped) value is
neither a string nor a byte slice is neither written verbatim nor an
error: the switch falls through and the value is encoded as an ordinary
element via `marshalValue`, with the same field descriptor and a fresh
child context, and with the parent stack untouched. -/
theorem claim_innerxml_fallthrough :
    ∀ (tname : String) (fi : FieldInfo) (vf : Value) (rest : FieldList)
      (i : Nat) (e : EncSt) (stack : List String),
      fi.mode = .fInnerXml → isRawTextual (unwrapIface vf) = false →
      marshalFields tname (.cons fi vf rest) i e stack
        = match marshalValue vf (some fi) e.st.length
              { p := e.p, st := e.st ++ [newCtxNode i] } with
          | .error er => .error er
          | .ok e2 => marshalFields tname rest i e2 stack := by
  intro tname fi vf rest i e stack hmode hraw
  have hpre : fieldPre tname fi vf e stack = .proceed e stack := by
    cases hu : unwrapIface vf <;> simp_all [fieldPre, isRawTextual]
  simp only [marshalFields, sizeFL, runF, hmode, hpre]
  rw [runF_mono (sizeV vf) (.value vf (some fi) e.st.length) rfl
    (sizeV vf + sizeFL rest) (sizeV vf)
    { p := e.p, st := e.st ++ [newCtxNode i] } (by omega) le_rfl]
  cases hres : runF (sizeV vf) (.value vf (some fi) e.st.length)
      { p := e.p, st := e.st ++ [newCtxNode i] } with
  | error er => simp [marshalValue, hres]
  | ok pr =>
    obtain ⟨e2, s2⟩ := pr
    simp only [marshalValue, hres]
    exact runF_mono (sizeFL rest) (.fieldsJ tname rest i stack) rfl
      (sizeV vf + sizeFL rest) (sizeFL rest) e2 (by omega) le_rfl

/-- A raw-inner-markup field descriptor. -/
def ixFi : FieldInfo :=
  { name := "f", xmlns := "", pfx := "", mode := .fInnerXml
    omitEmpty := false, parents := [] }

theorem claim_innerxml_fallthrough_witness :
    marshalFields "X" (.cons ixFi (.intV 5) .nil) 1 exEncSt []
      = match marshalValue (.intV 5) (some ixFi) exEncSt.st.length
            { p := exEncSt.p, st := exEncSt.st ++ [newCtxNode 1] } with
        | .error er => .error er
        | .ok e2 => marshalFields "X" .nil 1 e2 [] :=
  claim_innerxml_fallthrough "X" ixFi (.intV 5) .nil 1 exEncSt [] rfl rfl

/-! ## Claim C4: attributes in unmapped namespaces need a prefix -/

/-- An attribute-mode field descriptor with namespace `u`, prefix `p`
and name `a`. -/
def mkAttrFi (u p a : String) : FieldInfo :=
  { name := a, xmlns := u, pfx := p, mode := .fAttr
    omitEmpty := false, parents := [] }

/-- C4: if a (non-skipped) attribute field resolves to a non-empty
namespace with no mapping in the context chain and carries no explicit
prefix, `marshalValue` fails with the needs-a-prefix error right after
writing the open tag's name; if the descriptor does carry a prefix, the
`xmlns:prefix` declaration is emitted once and the attribute is written
with that prefix. -/
theorem claim_attr_prefix :
    (∀ (u a : String) (i : Nat) (e : EncSt),
        u ≠ "" → ctxXmlns e.st i = "" → ctxGet e.st i "" = none →
        ctxGet e.st i u = none →
        marshalValue (.structV "T" none none
            (.cons (mkAttrFi u "" a) (.str "x") .nil)) none i e
          = .error (.needsPfx a "T",
              { p := (e.p.writeIndent 1).write "<T", st := e.st }))
  ∧ (Marshal (.structV "T" none none
        (.cons (mkAttrFi "u" "p" "a") (.str "v") .nil))
      = .ok "<T xmlns:p=\"u\" p:a=\"v\"></T>") := by
  constructor
  · intro u a i e hu hxe hget0 hget
    simp only [marshalValue, sizeV, sizeFL, runF, openElement, openElemTag,
      resolveNameNs, xmlnameTagOf, typeNameOf, openElemAttrs, structFields,
      attrNsScan, mkAttrFi, isEmptyValue, hxe, hget0, hget, hu]
    simp [hxe, hget0, hget, hu, tagPfxStr]
  · rfl

theorem claim_attr_prefix_witness :
    marshalValue (.structV "T" none none
        (.cons (mkAttrFi "urn:a" "" "a") (.str "x") .nil)) none 1 exEncSt
      = .error (.needsPfx "a" "T",
          { p := (exEncSt.p.writeIndent 1).write "<T", st := exEncSt.st }) :=
  claim_attr_prefix.1 "urn:a" "a" 1 exEncSt (by decide) rfl rfl rfl

/-! ## Claim C1: one namespace declaration per chain -/

theorem storeModify_ne (st : CtxStore) (i j : Nat) (f : CtxNode → CtxNode)
    (hj : j ≠ i) : (storeModify st i f)[j]? = st[j]? := by
  unfold storeModify
  cases st[i]? with
  | none => rfl
  | some n => exact List.getElem?_set_ne (Ne.symm hj)

theorem storeSetXmlns_ne (st : CtxStore) (i j : Nat) (ns : String)
    (hj : j ≠ i) : (storeSetXmlns st i ns)[j]? = st[j]? :=
  storeModify_ne st i j _ hj

theorem storeBind_ne (st : CtxStore) (i j : Nat) (k v : String)
    (hj : j ≠ i) : (storeBind st i k v)[j]? = st[j]? :=
  storeModify_ne st i j _ hj

/-- Name resolution only ever writes the current node's `xmlns`; every
other node of the store is untouched. -/
theorem resolveNameNs_frame (val : Value) (finfo : Option FieldInfo) (i : Nat)
    (st st2 : CtxStore) (pfx name : String)
    (hres : resolveNameNs val finfo i st = .ok (st2, pfx, name)) :
    ∀ j, j ≠ i → st2[j]? = st[j]? := by
  intro j hj
  have hset : ∀ (base : CtxStore) (ns : String), base[j]? = st[j]? →
      (storeSetXmlns base i ns)[j]? = st[j]? :=
    fun base ns h => (storeSetXmlns_ne base i j ns hj).trans h
  unfold resolveNameNs at hres
  cases finfo <;>
    cases hx : xmlnameTagOf val <;>
    simp only [hx] at hres <;>
    (try cases hv : xmlnameValOf val) <;>
    (try simp only [hv] at hres) <;>
    (repeat' split at hres) <;>
    simp_all <;>
    first
      | (obtain ⟨h1, h2, h3⟩ := hres; subst h1; rfl)
      | (obtain ⟨h1, h2, h3⟩ := hres; subst h1; exact hset _ _ rfl)
      | (obtain ⟨h1, h2, h3⟩ := hres; subst h1; exact hset _ _ (hset _ _ rfl))

/-- Outer field binding namespace `urn:a`. -/
def outerFi : FieldInfo :=
  { name := "outer", xmlns := "urn:a", pfx := "", mode := .fElement
    omitEmpty := false, parents := [] }

/-- Inner field using the same namespace `urn:a`. -/
def innerFi : FieldInfo :=
  { name := "inner", xmlns := "urn:a", pfx := "", mode := .fElement
    omitEmpty := false, parents := [] }

def c1Top : Value :=
  .structV "Top" none none
    (.cons outerFi (.structV "O" none none
      (.cons innerFi (.structV "I" none none .nil) .nil)) .nil)

/-- C1: when `marshalValue` opens an element, an `xmlns[:pfx]`
declaration is emitted if and only if the resolved namespace is
non-empty and `Get` finds no mapping for it in the current context or
any ancestor; when emitted, the binding is inserted into the current
node only — every other store node, ancestors included, is unchanged by
name resolution and by the binding — so a namespace bound once on an
ancestor (hence mapped, by `Get`'s chain search) is never re-declared
by a strict descendant using the same namespace, as the nested concrete
encode with a single `xmlns="urn:a"` shows. -/
theorem claim_xmlns_decl :
    (∀ (val : Value) (finfo : Option FieldInfo) (i : Nat) (e : EncSt)
        (st2 : CtxStore) (pfx name : String),
        resolveNameNs val finfo i e.st = .ok (st2, pfx, name) →
        (((ctxGet st2 i (ctxXmlns st2 i)).isSome = true ∨ ctxXmlns st2 i = "") →
          openElemTag val finfo i e
            = .ok ({ p := (e.p.writeIndent 1).write
                      ("<" ++ tagPfxStr pfx ((ctxGet st2 i (ctxXmlns st2 i)).getD "") ++ name)
                     st := st2 },
                   pfx, (ctxGet st2 i (ctxXmlns st2 i)).getD "", name))
        ∧ (ctxGet st2 i (ctxXmlns st2 i) = none → ctxXmlns st2 i ≠ "" →
          openElemTag val finfo i e
            = .ok ({ p := ((e.p.writeIndent 1).write
                        ("<" ++ tagPfxStr pfx "" ++ name)).write
                        (nsDeclStr pfx (ctxXmlns st2 i))
                     st := storeBind st2 i (ctxXmlns st2 i) pfx },
                   pfx, "", name))
        ∧ (∀ j, j ≠ i → st2[j]? = e.st[j]?
            ∧ ∀ k v, (storeBind st2 i k v)[j]? = e.st[j]?))
  ∧ (Marshal c1Top
      = .ok "<Top><outer xmlns=\"urn:a\"><inner></inner></outer></Top>") := by
  constructor
  · intro val finfo i e st2 pfx name hres
    refine ⟨?_, ?_, ?_⟩
    · intro hmapped
      simp only [openElemTag, hres]
      rcases hmapped with hs | hns
      · rw [if_neg]
        simp [hs]
      · rw [if_neg]
        simp [hns]
    · intro hnone hns
      simp only [openElemTag, hres, hnone, hns]
      rw [if_pos]
      · simp [Option.getD]
      · simp [hnone, hns]
    · intro j hj
      refine ⟨resolveNameNs_frame val finfo i e.st st2 pfx name hres j hj, ?_⟩
      intro k v
      exact (storeBind_ne st2 i j k v hj).trans
        (resolveNameNs_frame val finfo i e.st st2 pfx name hres j hj)
  · rfl

theorem claim_xmlns_decl_witness :
    openElemTag (.structV "S" (some { name := "error", xmlns := "xmpp1" }) none .nil)
        none 1 exEncSt
      = .ok ({ p := ((exEncSt.p.writeIndent 1).write ("<" ++ tagPfxStr "" "" ++ "error")).write
                  (nsDeclStr "" "xmpp1")
               st := storeBind (storeSetXmlns exEncSt.st 1 "xmpp1") 1 "xmpp1" "" },
             "", "", "error")
    ∧ (storeBind (storeSetXmlns exEncSt.st 1 "xmpp1") 1 "xmpp1" "")[0]?
       = exEncSt.st[0]? := by
  have h := claim_xmlns_decl.1 (.structV "S" (some { name := "error", xmlns := "xmpp1" }) none .nil)
    none 1 exEncSt (storeSetXmlns exEncSt.st 1 "xmpp1") "" "error" rfl
  exact ⟨h.2.1 rfl (by decide), ((h.2.2 0 (by decide)).2 "xmpp1" "")⟩

/-! ## Claim C8: repeated encodes through one encoder -/

/-- The state reached by a marshalling step, error or not. -/
def resSt : Except (MErr × EncSt) (EncSt × List String) → EncSt
  | .ok (e, _) => e
  | .error (_, e) => e

def resSt2 : Except (MErr × EncSt) EncSt → EncSt
  | .ok e => e
  | .error (_, e) => e

def oeSt : Except (MErr × EncSt) (EncSt × String × String × String) → EncSt
  | .ok (e, _, _, _) => e
  | .error (_, e) => e

/-- `st2` differs from `st` at most at index `i` and has the same
length. -/
def ModOnly (st st2 : CtxStore) (i : Nat) : Prop :=
  st2.length = st.length ∧ ∀ j, j ≠ i → st2[j]? = st[j]?

theorem modOnly_refl (st : CtxStore) (i : Nat) : ModOnly st st i :=
  ⟨rfl, fun _ _ => rfl⟩

theorem storeModify_length (st : CtxStore) (i : Nat) (f : CtxNode → CtxNode) :
    (storeModify st i f).length = st.length := by
  unfold storeModify
  cases st[i]? with
  | none => rfl
  | some n =>
    show (st.set i (f n)).length = st.length
    exact List.length_set st i (f n)

theorem modOnly_modify (st st2 : CtxStore) (i : Nat) (f : CtxNode → CtxNode)
    (h : ModOnly st st2 i) : ModOnly st (storeModify st2 i f) i :=
  ⟨(storeModify_length st2 i f).trans h.1,
   fun j hj => (storeModify_ne st2 i j f hj).trans (h.2 j hj)⟩

/-- Name resolution modifies only the current node. -/
theorem resolveNameNs_mod (val : Value) (finfo : Option FieldInfo) (i : Nat)
    (st st2 : CtxStore) (pfx name : String)
    (hres : resolveNameNs val finfo i st = .ok (st2, pfx, name)) :
    ModOnly st st2 i := by
  unfold resolveNameNs at hres
  cases finfo <;>
    cases hx : xmlnameTagOf val <;>
    simp only [hx] at hres <;>
    (try cases hv : xmlnameValOf val) <;>
    (try simp only [hv] at hres) <;>
    (repeat' split at hres) <;>
    simp_all <;>
    first
      | (obtain ⟨h1, h2, h3⟩ := hres; rw [← h1]; exact modOnly_refl st i)
      | (obtain ⟨h1, h2, h3⟩ := hres; rw [← h1]
         exact modOnly_modify _ _ _ _ (modOnly_refl st i))
      | (obtain ⟨h1, h2, h3⟩ := hres; rw [← h1]
         exact modOnly_modify _ _ _ _ (modOnly_modify _ _ _ _ (modOnly_refl st i)))

/-- The store component of a `fieldPre` outcome. -/
def preSt : FieldPre → CtxStore
  | .err _ e2 => e2.st
  | .skip e2 => e2.st
  | .proceed e2 _ => e2.st

/-- `fieldPre` never touches the store. -/
theorem fieldPre_st (tname : String) (fi : FieldInfo) (vf : Value) (e : EncSt)
    (stack : List String) :
    preSt (fieldPre tname fi vf e stack) = e.st := by
  unfold fieldPre
  cases fi.mode <;> (try rfl) <;> cases vf <;> dsimp only <;>
    (repeat' split) <;> rfl

/-- The attribute output loop never touches the store. -/
theorem attrWrite_st (i : Nat) : ∀ (fl : FieldList) (e : EncSt),
    (resSt2 (attrWrite i fl e)).st = e.st
  | .nil, _ => rfl
  | .cons fi v rest, e => by
    unfold attrWrite
    by_cases h1 : fi.mode ≠ .fAttr
    · rw [if_pos h1]
      exact attrWrite_st i rest e
    · rw [if_neg h1]
      by_cases h2 : (fi.omitEmpty && isEmptyValue v) = true
      · rw [if_pos h2]
        exact attrWrite_st i rest e
      · rw [if_neg h2]
        split
        · rfl
        · exact attrWrite_st i rest _

/-- The attribute namespace scan binds only into the current node. -/
theorem attrNsScan_mod (nm : String) (i : Nat) : ∀ (fl : FieldList) (e : EncSt),
    ModOnly e.st (resSt2 (attrNsScan nm i fl e)).st i
  | .nil, e => modOnly_refl e.st i
  | .cons fi v rest, e => by
    unfold attrNsScan
    by_cases h1 : fi.mode ≠ .fAttr
    · rw [if_pos h1]
      exact attrNsScan_mod nm i rest e
    · rw [if_neg h1]
      by_cases h2 : (fi.omitEmpty && isEmptyValue v) = true
      · rw [if_pos h2]
        exact attrNsScan_mod nm i rest e
      · rw [if_neg h2]
        by_cases h3 : (fi.xmlns ≠ "" && !(ctxGet e.st i fi.xmlns).isSome) = true
        · rw [if_pos h3]
          by_cases h4 : fi.pfx = ""
          · rw [if_pos h4]
            exact modOnly_refl e.st i
          · rw [if_neg h4]
            have hrec := attrNsScan_mod nm i rest
              { p := e.p.write (" xmlns:" ++ fi.pfx ++ "=\"" ++ escapeStr fi.xmlns ++ "\"")
                st := storeBind e.st i fi.xmlns fi.pfx }
            refine ⟨hrec.1.trans (storeModify_length e.st i _), fun j hj => ?_⟩
            exact (hrec.2 j hj).trans (storeModify_ne e.st i j _ hj)
        · rw [if_neg h3]
          exact attrNsScan_mod nm i rest e

theorem modOnly_trans {a b c : CtxStore} {i : Nat}
    (h1 : ModOnly a b i) (h2 : ModOnly b c i) : ModOnly a c i :=
  ⟨h2.1.trans h1.1, fun j hj => (h2.2 j hj).trans (h1.2 j hj)⟩

theorem openElemTag_mod (val : Value) (finfo : Option FieldInfo) (i : Nat)
    (e : EncSt) :
    ModOnly e.st (oeSt (openElemTag val finfo i e)).st i := by
  unfold openElemTag
  cases hres : resolveNameNs val finfo i e.st with
  | error er => exact modOnly_refl e.st i
  | ok r =>
    obtain ⟨st2, pfx, name⟩ := r
    have hmod2 : ModOnly e.st st2 i :=
      resolveNameNs_mod val finfo i e.st st2 pfx name hres
    dsimp only
    split
    · exact modOnly_trans hmod2 (modOnly_modify _ _ _ _ (modOnly_refl st2 i))
    · exact hmod2

theorem openElemAttrs_mod (val : Value) (i : Nat) (name : String) (e : EncSt) :
    ModOnly e.st (resSt2 (openElemAttrs val i name e)).st i := by
  unfold openElemAttrs
  cases hs : attrNsScan name i (structFields val) e with
  | error er =>
    obtain ⟨er1, e4⟩ := er
    have h := attrNsScan_mod name i (structFields val) e
    rw [hs] at h
    try rw [hs]
    simpa [resSt2] using h
  | ok e3 =>
    have h := attrNsScan_mod name i (structFields val) e
    rw [hs] at h
    simp only [resSt2] at h
    try rw [hs]
    try dsimp only
    cases hw : attrWrite i (structFields val) e3 with
    | error er =>
      obtain ⟨er1, e4⟩ := er
      have hw2 := attrWrite_st i (structFields val) e3
      rw [hw] at hw2
      try rw [hw]
      simp only [resSt2] at hw2 ⊢
      try dsimp only
      rw [hw2]
      exact h
    | ok e4 =>
      have hw2 := attrWrite_st i (structFields val) e3
      rw [hw] at hw2
      try rw [hw]
      simp only [resSt2] at hw2 ⊢
      try dsimp only
      rw [hw2]
      exact h

/-- The whole open tag binds only into the current node and preserves
the store's length. -/
theorem openElement_mod (val : Value) (finfo : Option FieldInfo) (i : Nat)
    (e : EncSt) :
    ModOnly e.st (oeSt (openElement val finfo i e)).st i := by
  unfold openElement
  cases ht : openElemTag val finfo i e with
  | error er =>
    obtain ⟨er1, e4⟩ := er
    have h := openElemTag_mod val finfo i e
    rw [ht] at h
    try rw [ht]
    simpa [oeSt] using h
  | ok r =>
    obtain ⟨e2, pfx, mapPfx, name⟩ := r
    have h := openElemTag_mod val finfo i e
    rw [ht] at h
    simp only [oeSt] at h
    try rw [ht]
    try dsimp only
    cases ha : openElemAttrs val i name e2 with
    | error er =>
      obtain ⟨er1, e4⟩ := er
      have h2 := openElemAttrs_mod val i name e2
      rw [ha] at h2
      try rw [ha]
      simp only [resSt2] at h2
      simpa [oeSt] using modOnly_trans h h2
    | ok e3 =>
      have h2 := openElemAttrs_mod val i name e2
      rw [ha] at h2
      try rw [ha]
      simp only [resSt2] at h2
      simpa [oeSt] using modOnly_trans h h2

theorem modOnly_le {st st2 : CtxStore} {i : Nat} (h : ModOnly st st2 i) :
    st.length ≤ st2.length :=
  le_of_eq h.1.symm

/-- Which store index a job may write: a `value` job writes its own
context node; list and field loops write only freshly allocated
children. -/
def jobSafe : Job → Nat → Prop
  | .value _ _ i, j => j ≠ i
  | .listJ _ _ _, _ => True
  | .fieldsJ _ _ _ _, _ => True

/-- Frame property of the interpreter: the store only grows, and every
pre-existing node other than a `value` job's own context node is
untouched — in particular every ancestor of the current context,
including the root. -/
theorem runF_frame (fuel : Nat) : ∀ (job : Job) (e : EncSt),
    e.st.length ≤ (resSt (runF fuel job e)).st.length
    ∧ ∀ j, j < e.st.length → jobSafe job j →
        (resSt (runF fuel job e)).st[j]? = e.st[j]? := by
  induction fuel with
  | zero => intro job e; exact ⟨le_rfl, fun j _ _ => rfl⟩
  | succ fuel ih =>
    intro job e
    cases job with
    | value val finfo i =>
      cases val with
      | invalid => exact ⟨le_rfl, fun j _ _ => rfl⟩
      | ptrNil =>
        simp only [runF]
        rw [ite_self]
        exact ⟨le_rfl, fun j _ _ => rfl⟩
      | ifaceNil =>
        simp only [runF]
        rw [ite_self]
        exact ⟨le_rfl, fun j _ _ => rfl⟩
      | ptrV v2 =>
        simp only [runF]
        split
        · exact ⟨le_rfl, fun j _ _ => rfl⟩
        · exact ⟨(ih (.value v2 finfo i) e).1,
            fun j hj hs => (ih (.value v2 finfo i) e).2 j hj hs⟩
      | ifaceV v2 =>
        simp only [runF]
        split
        · exact ⟨le_rfl, fun j _ _ => rfl⟩
        · exact ⟨(ih (.value v2 finfo i) e).1,
            fun j hj hs => (ih (.value v2 finfo i) e).2 j hj hs⟩
      | arr elems =>
        simp only [runF]
        split
        · exact ⟨le_rfl, fun j _ _ => rfl⟩
        · exact ⟨(ih (.listJ elems finfo i) e).1,
            fun j hj _ => (ih (.listJ elems finfo i) e).2 j hj trivial⟩
      | bytes d =>
        simp only [runF]
        split
        · exact ⟨le_rfl, fun j _ _ => rfl⟩
        · have hm := openElement_mod (.bytes d) finfo i e
          cases hoe : openElement (.bytes d) finfo i e with
          | error er =>
            obtain ⟨er1, e4⟩ := er
            rw [hoe] at hm
            simp only [oeSt] at hm
            try rw [hoe]
            try dsimp only
            exact ⟨modOnly_le hm, fun j hj hs => hm.2 j hs⟩
          | ok r =>
            obtain ⟨e1, pfx, mapPfx, name⟩ := r
            rw [hoe] at hm
            simp only [oeSt] at hm
            try rw [hoe]
            try dsimp only
            cases hms : marshalSimple (.bytes d) e1.p with
            | error er2 =>
              obtain ⟨er3, pe⟩ := er2
              try rw [hms]
              try dsimp only
              exact ⟨modOnly_le hm, fun j hj hs => hm.2 j hs⟩
            | ok p2 =>
              try rw [hms]
              try dsimp only
              exact ⟨modOnly_le hm, fun j hj hs => hm.2 j hs⟩
      | str s =>
        simp only [runF]
        split
        · exact ⟨le_rfl, fun j _ _ => rfl⟩
        · have hm := openElement_mod (.str s) finfo i e
          cases hoe : openElement (.str s) finfo i e with
          | error er =>
            obtain ⟨er1, e4⟩ := er
            rw [hoe] at hm
            simp only [oeSt] at hm
            try rw [hoe]
            try dsimp only
            exact ⟨modOnly_le hm, fun j hj hs => hm.2 j hs⟩
          | ok r =>
            obtain ⟨e1, pfx, mapPfx, name⟩ := r
            rw [hoe] at hm
            simp only [oeSt] at hm
            try rw [hoe]
            try dsimp only
            cases hms : marshalSimple (.str s) e1.p with
            | error er2 =>
              obtain ⟨er3, pe⟩ := er2
              try rw [hms]
              try dsimp only
              exact ⟨modOnly_le hm, fun j hj hs => hm.2 j hs⟩
            | ok p2 =>
              try rw [hms]
              try dsimp only
              exact ⟨modOnly_le hm, fun j hj hs => hm.2 j hs⟩
      | intV m =>
        simp only [runF]
        split
        · exact ⟨le_rfl, fun j _ _ => rfl⟩
        · have hm := openElement_mod (.intV m) finfo i e
          cases hoe : openElement (.intV m) finfo i e with
          | error er =>
            obtain ⟨er1, e4⟩ := er
            rw [hoe] at hm
            simp only [oeSt] at hm
            try rw [hoe]
            try dsimp only
            exact ⟨modOnly_le hm, fun j hj hs => hm.2 j hs⟩
          | ok r =>
            obtain ⟨e1, pfx, mapPfx, name⟩ := r
            rw [hoe] at hm
            simp only [oeSt] at hm
            try rw [hoe]
            try dsimp only
            cases hms : marshalSimple (.intV m) e1.p with
            | error er2 =>
              obtain ⟨er3, pe⟩ := er2
              try rw [hms]
              try dsimp only
              exact ⟨modOnly_le hm, fun j hj hs => hm.2 j hs⟩
            | ok p2 =>
              try rw [hms]
              try dsimp only
              exact ⟨modOnly_le hm, fun j hj hs => hm.2 j hs⟩
      | boolV bb =>
        simp only [runF]
        split
        · exact ⟨le_rfl, fun j _ _ => rfl⟩
        · have hm := openElement_mod (.boolV bb) finfo i e
          cases hoe : openElement (.boolV bb) finfo i e with
          | error er =>
            obtain ⟨er1, e4⟩ := er
            rw [hoe] at hm
            simp only [oeSt] at hm
            try rw [hoe]
            try dsimp only
            exact ⟨modOnly_le hm, fun j hj hs => hm.2 j hs⟩
          | ok r =>
            obtain ⟨e1, pfx, mapPfx, name⟩ := r
            rw [hoe] at hm
            simp only [oeSt] at hm
            try rw [hoe]
            try dsimp only
            cases hms : marshalSimple (.boolV bb) e1.p with
            | error er2 =>
              obtain ⟨er3, pe⟩ := er2
              try rw [hms]
              try dsimp only
              exact ⟨modOnly_le hm, fun j hj hs => hm.2 j hs⟩
            | ok p2 =>
              try rw [hms]
              try dsimp only
              exact ⟨modOnly_le hm, fun j hj hs => hm.2 j hs⟩
      | mapV m =>
        simp only [runF]
        split
        · exact ⟨le_rfl, fun j _ _ => rfl⟩
        · have hm := openElement_mod (.mapV m) finfo i e
          cases hoe : openElement (.mapV m) finfo i e with
          | error er =>
            obtain ⟨er1, e4⟩ := er
            rw [hoe] at hm
            simp only [oeSt] at hm
            try rw [hoe]
            try dsimp only
            exact ⟨modOnly_le hm, fun j hj hs => hm.2 j hs⟩
          | ok r =>
            obtain ⟨e1, pfx, mapPfx, name⟩ := r
            rw [hoe] at hm
            simp only [oeSt] at hm
            try rw [hoe]
            try dsimp only
            cases hms : marshalSimple (.mapV m) e1.p with
            | error er2 =>
              obtain ⟨er3, pe⟩ := er2
              try rw [hms]
              try dsimp only
              exact ⟨modOnly_le hm, fun j hj hs => hm.2 j hs⟩
            | ok p2 =>
              try rw [hms]
              try dsimp only
              exact ⟨modOnly_le hm, fun j hj hs => hm.2 j hs⟩
      | structV tname xn nv flds =>
        simp only [runF]
        split
        · exact ⟨le_rfl, fun j _ _ => rfl⟩
        · have hm := openElement_mod (.structV tname xn nv flds) finfo i e
          cases hoe : openElement (.structV tname xn nv flds) finfo i e with
          | error er =>
            obtain ⟨er1, e4⟩ := er
            rw [hoe] at hm
            simp only [oeSt] at hm
            try rw [hoe]
            try dsimp only
            exact ⟨modOnly_le hm, fun j hj hs => hm.2 j hs⟩
          | ok r =>
            obtain ⟨e1, pfx, mapPfx, name⟩ := r
            rw [hoe] at hm
            simp only [oeSt] at hm
            try rw [hoe]
            try dsimp only
            have hf := ih (.fieldsJ tname flds i []) e1
            cases hfr : runF fuel (.fieldsJ tname flds i []) e1 with
            | error er2 =>
              obtain ⟨er3, e5⟩ := er2
              rw [hfr] at hf
              simp only [resSt] at hf
              try rw [hfr]
              try dsimp only
              refine ⟨le_trans (modOnly_le hm) hf.1, fun j hj hs => ?_⟩
              have h1 : e5.st[j]? = e1.st[j]? :=
                hf.2 j (by rw [hm.1]; exact hj) trivial
              exact h1.trans (hm.2 j hs)
            | ok pr =>
              obtain ⟨e2, stack2⟩ := pr
              rw [hfr] at hf
              simp only [resSt] at hf
              try rw [hfr]
              try dsimp only
              refine ⟨le_trans (modOnly_le hm) hf.1, fun j hj hs => ?_⟩
              have h1 : e2.st[j]? = e1.st[j]? :=
                hf.2 j (by rw [hm.1]; exact hj) trivial
              exact h1.trans (hm.2 j hs)
    | listJ elems finfo i =>
      cases elems with
      | nil => exact ⟨le_rfl, fun j _ _ => rfl⟩
      | cons v rest =>
        simp only [runF]
        have hlen1 : (e.st ++ [newCtxNode i]).length = e.st.length + 1 := by simp
        have hv := ih (.value v finfo e.st.length)
          { p := e.p, st := e.st ++ [newCtxNode i] }
        cases hres : runF fuel (.value v finfo e.st.length)
            { p := e.p, st := e.st ++ [newCtxNode i] } with
        | error er =>
          obtain ⟨er1, e4⟩ := er
          rw [hres] at hv
          simp only [resSt] at hv
          try rw [hres]
          try dsimp only
          refine ⟨le_trans (by omega) hv.1, fun j hj _ => ?_⟩
          have h1 : e4.st[j]? = (e.st ++ [newCtxNode i])[j]? :=
            hv.2 j (by omega) (by simp only [jobSafe]; omega)
          exact h1.trans (List.getElem?_append_left hj)
        | ok pr =>
          obtain ⟨e2, s2⟩ := pr
          rw [hres] at hv
          simp only [resSt] at hv
          try rw [hres]
          try dsimp only
          have hr := ih (.listJ rest finfo i) e2
          refine ⟨le_trans (by omega) (le_trans hv.1 hr.1), fun j hj _ => ?_⟩
          have h1 : (resSt (runF fuel (.listJ rest finfo i) e2)).st[j]?
              = e2.st[j]? := hr.2 j (by omega) trivial
          have h2 : e2.st[j]? = (e.st ++ [newCtxNode i])[j]? :=
            hv.2 j (by omega) (by simp only [jobSafe]; omega)
          exact h1.trans (h2.trans (List.getElem?_append_left hj))
    | fieldsJ tname flds i stack =>
      cases flds with
      | nil => exact ⟨le_rfl, fun j _ _ => rfl⟩
      | cons fi vf rest =>
        simp only [runF]
        by_cases hattr : fi.mode = .fAttr
        · rw [if_pos hattr]
          exact ⟨(ih (.fieldsJ tname rest i stack) e).1,
            fun j hj _ => (ih (.fieldsJ tname rest i stack) e).2 j hj trivial⟩
        · rw [if_neg hattr]
          have hpe := fieldPre_st tname fi vf e stack
          cases hpre : fieldPre tname fi vf e stack with
          | err er e2 =>
            rw [hpre] at hpe
            simp only [preSt] at hpe
            try rw [hpre]
            try dsimp only
            exact ⟨le_of_eq (congrArg List.length hpe).symm,
              fun j hj _ => by simp only [resSt]; rw [hpe]⟩
          | skip e2 =>
            rw [hpre] at hpe
            simp only [preSt] at hpe
            try rw [hpre]
            try dsimp only
            have hr := ih (.fieldsJ tname rest i stack) e2
            refine ⟨le_trans (le_of_eq (congrArg List.length hpe).symm) hr.1,
              fun j hj _ => ?_⟩
            have h1 := hr.2 j (by rw [hpe]; exact hj) trivial
            rw [h1, hpe]
          | proceed e2 stack2 =>
            rw [hpre] at hpe
            simp only [preSt] at hpe
            try rw [hpre]
            try dsimp only
            have hlen1 : (e2.st ++ [newCtxNode i]).length = e.st.length + 1 := by
              simp [hpe]
            have hv := ih (.value vf (some fi) e2.st.length)
              { p := e2.p, st := e2.st ++ [newCtxNode i] }
            cases hres : runF fuel (.value vf (some fi) e2.st.length)
                { p := e2.p, st := e2.st ++ [newCtxNode i] } with
            | error er =>
              obtain ⟨er1, e4⟩ := er
              rw [hres] at hv
              simp only [resSt] at hv
              try rw [hres]
              try dsimp only
              refine ⟨le_trans (by omega) hv.1, fun j hj _ => ?_⟩
              have h1 : e4.st[j]? = (e2.st ++ [newCtxNode i])[j]? :=
                hv.2 j (by omega) (by simp only [jobSafe, hpe]; omega)
              simp only [resSt]
              rw [h1, List.getElem?_append_left (by rw [hpe]; exact hj), hpe]
            | ok pr =>
              obtain ⟨e3, s3⟩ := pr
              rw [hres] at hv
              simp only [resSt] at hv
              try rw [hres]
              try dsimp only
              have hr := ih (.fieldsJ tname rest i stack2) e3
              refine ⟨le_trans (by omega) (le_trans hv.1 hr.1), fun j hj _ => ?_⟩
              have h1 := hr.2 j (by omega) trivial
              have h2 : e3.st[j]? = (e2.st ++ [newCtxNode i])[j]? :=
                hv.2 j (by omega) (by simp only [jobSafe, hpe]; omega)
              rw [h1, h2, List.getElem?_append_left (by rw [hpe]; exact hj), hpe]

/-! ## Claim C8: output parametricity of the default-configuration printer

With the `Marshal` configuration (no line prefix, no indent unit) the
printer is a pure output accumulator: `writeIndent` is the identity, so
the bytes a marshalling step appends |and every other component of the
result| do not depend on the output already accumulated.  The lemmas
below establish this "parametricity in the accumulated output" for every
primitive and for the interpreter, which is what makes two successive
`Encode` calls byte-for-byte identical. -/

/-- A printer with the default (`Marshal`) configuration carrying
accumulated output `o`. -/
def basePr (o : String) : Printer :=
  { out := o, prefixStr := "", indent := "", depth := 0
    indentedIn := false, putNewline := false }

theorem basePr_write (o s : String) : (basePr o).write s = basePr (o ++ s) := rfl

theorem basePr_writeIndent (o : String) (d : Int) :
    (basePr o).writeIndent d = basePr o :=
  writeIndent_noop _ d rfl rfl

theorem strANil (a : String) : a ++ "" = a := by
  cases a with
  | mk l => exact congrArg String.mk (List.append_nil l)

theorem closeElement_base (pfx mapPfx name o : String) :
    closeElement pfx mapPfx name (basePr o)
      = basePr (o ++ ("</" ++ tagPfxStr pfx mapPfx ++ name ++ ">")) := by
  unfold closeElement
  rw [basePr_writeIndent]
  exact basePr_write _ _

/-- The bytes opening the given tag names in order. -/
def openSeq (names : List String) : String :=
  concatAll (names.map (fun n => "<" ++ n ++ ">"))

theorem openTags_out (names : List String) : ∀ (p : Printer),
    p.prefixStr = "" → p.indent = "" →
    openTags p names = { p with out := p.out ++ openSeq names } := by
  induction names with
  | nil =>
    intro p h1 h2
    simp [openTags, openSeq, concatAll]
  | cons n rest ih =>
    intro p h1 h2
    simp only [openTags]
    rw [writeIndent_noop p 1 h1 h2]
    rw [ih (p.write ("<" ++ n ++ ">")) h1 h2]
    simp [Printer.write, openSeq, concatAll, String.append_assoc]

theorem psTrim_base (o : String) (stack parents : List String) :
    psTrim (basePr o) stack parents
      = (basePr (o ++ closeSeq ((stack.drop (commonPrefixLen parents stack)).reverse)),
         parents.take (commonPrefixLen parents stack)) := by
  rw [psTrim_eq (basePr o) stack parents rfl rfl]
  rfl

theorem trimPush_param (stack parents : List String) (vf : Value) :
    ∃ s stk2, ∀ o, trimPush (basePr o) stack parents vf = (basePr (o ++ s), stk2) := by
  by_cases hc : ((parents.take (commonPrefixLen parents stack)).length < parents.length
      && pushCond vf) = true
  · refine ⟨closeSeq ((stack.drop (commonPrefixLen parents stack)).reverse)
        ++ openSeq (parents.drop (parents.take (commonPrefixLen parents stack)).length),
      parents.take (commonPrefixLen parents stack)
        ++ parents.drop (parents.take (commonPrefixLen parents stack)).length,
      fun o => ?_⟩
    unfold trimPush psPush
    rw [psTrim_base o stack parents]
    dsimp only
    rw [if_pos hc]
    rw [openTags_out _ _ rfl rfl]
    dsimp only [basePr]
    rw [String.append_assoc]
  · refine ⟨closeSeq ((stack.drop (commonPrefixLen parents stack)).reverse),
      parents.take (commonPrefixLen parents stack), fun o => ?_⟩
    unfold trimPush
    rw [psTrim_base o stack parents]
    dsimp only
    rw [if_neg hc]

theorem marshalSimple_param (sv : Value) :
    (∃ er, ∀ o, marshalSimple sv (basePr o) = .error (er, basePr o))
    ∨ (∃ s, ∀ o, marshalSimple sv (basePr o) = .ok (basePr (o ++ s))) := by
  cases sv with
  | intV n => exact .inr ⟨toString n, fun o => rfl⟩
  | str s => exact .inr ⟨escapeStr s, fun o => rfl⟩
  | boolV b => exact .inr ⟨(if b then "true" else "false"), fun o => rfl⟩
  | bytes b => exact .inr ⟨escapeStr b, fun o => rfl⟩
  | invalid => exact .inl ⟨.unsupportedType (typeNameOf .invalid), fun o => rfl⟩
  | ptrNil => exact .inl ⟨.unsupportedType (typeNameOf .ptrNil), fun o => rfl⟩
  | ptrV v2 => exact .inl ⟨.unsupportedType (typeNameOf (.ptrV v2)), fun o => rfl⟩
  | ifaceNil => exact .inl ⟨.unsupportedType (typeNameOf .ifaceNil), fun o => rfl⟩
  | ifaceV v2 => exact .inl ⟨.unsupportedType (typeNameOf (.ifaceV v2)), fun o => rfl⟩
  | arr l => exact .inl ⟨.unsupportedType (typeNameOf (.arr l)), fun o => rfl⟩
  | mapV n => exact .inl ⟨.unsupportedType (typeNameOf (.mapV n)), fun o => rfl⟩
  | structV tn xn nv flds =>
    exact .inl ⟨.unsupportedType (typeNameOf (.structV tn xn nv flds)), fun o => rfl⟩

theorem attrNsScan_param (nm : String) (i : Nat) : ∀ (fl : FieldList) (st : CtxStore),
    (∃ er s st2, ∀ o, attrNsScan nm i fl { p := basePr o, st := st }
        = .error (er, { p := basePr (o ++ s), st := st2 }))
    ∨ (∃ s st2, ∀ o, attrNsScan nm i fl { p := basePr o, st := st }
        = .ok { p := basePr (o ++ s), st := st2 })
  | .nil, st => .inr ⟨"", st, fun o => by rw [strANil]; rfl⟩
  | .cons fi fv rest, st => by
    by_cases h1 : fi.mode ≠ .fAttr
    · rcases attrNsScan_param nm i rest st with ⟨er, s, st2, hp⟩ | ⟨s, st2, hp⟩
      · exact .inl ⟨er, s, st2, fun o => by
          unfold attrNsScan; rw [if_pos h1]; exact hp o⟩
      · exact .inr ⟨s, st2, fun o => by
          unfold attrNsScan; rw [if_pos h1]; exact hp o⟩
    · by_cases h2 : (fi.omitEmpty && isEmptyValue fv) = true
      · rcases attrNsScan_param nm i rest st with ⟨er, s, st2, hp⟩ | ⟨s, st2, hp⟩
        · exact .inl ⟨er, s, st2, fun o => by
            unfold attrNsScan; rw [if_neg h1, if_pos h2]; exact hp o⟩
        · exact .inr ⟨s, st2, fun o => by
            unfold attrNsScan; rw [if_neg h1, if_pos h2]; exact hp o⟩
      · by_cases h3 : (fi.xmlns ≠ "" && !(ctxGet st i fi.xmlns).isSome) = true
        · by_cases h4 : fi.pfx = ""
          · exact .inl ⟨.needsPfx fi.name nm, "", st, fun o => by
              unfold attrNsScan
              dsimp only
              rw [strANil, if_neg h1, if_neg h2, if_pos h3, if_pos h4]⟩
          · rcases attrNsScan_param nm i rest (storeBind st i fi.xmlns fi.pfx) with
              ⟨er, s, st2, hp⟩ | ⟨s, st2, hp⟩
            · exact .inl ⟨er,
                (" xmlns:" ++ fi.pfx ++ "=\"" ++ escapeStr fi.xmlns ++ "\"") ++ s,
                st2, fun o => by
                unfold attrNsScan
                dsimp only
                rw [if_neg h1, if_neg h2, if_pos h3, if_neg h4]
                simp only [basePr_write, String.append_assoc]
                rw [hp]
                simp only [String.append_assoc]⟩
            · exact .inr
                ⟨(" xmlns:" ++ fi.pfx ++ "=\"" ++ escapeStr fi.xmlns ++ "\"") ++ s,
                st2, fun o => by
                unfold attrNsScan
                dsimp only
                rw [if_neg h1, if_neg h2, if_pos h3, if_neg h4]
                simp only [basePr_write, String.append_assoc]
                rw [hp]
                simp only [String.append_assoc]⟩
        · rcases attrNsScan_param nm i rest st with ⟨er, s, st2, hp⟩ | ⟨s, st2, hp⟩
          · exact .inl ⟨er, s, st2, fun o => by
              unfold attrNsScan
              dsimp only
              rw [if_neg h1, if_neg h2, if_neg h3]
              exact hp o⟩
          · exact .inr ⟨s, st2, fun o => by
              unfold attrNsScan
              dsimp only
              rw [if_neg h1, if_neg h2, if_neg h3]
              exact hp o⟩

theorem attrWrite_param (i : Nat) : ∀ (fl : FieldList) (st : CtxStore),
    (∃ er s st2, ∀ o, attrWrite i fl { p := basePr o, st := st }
        = .error (er, { p := basePr (o ++ s), st := st2 }))
    ∨ (∃ s st2, ∀ o, attrWrite i fl { p := basePr o, st := st }
        = .ok { p := basePr (o ++ s), st := st2 })
  | .nil, st => .inr ⟨"", st, fun o => by rw [strANil]; rfl⟩
  | .cons fi fv rest, st => by
    by_cases h1 : fi.mode ≠ .fAttr
    · rcases attrWrite_param i rest st with ⟨er, s, st2, hp⟩ | ⟨s, st2, hp⟩
      · exact .inl ⟨er, s, st2, fun o => by
          unfold attrWrite; rw [if_pos h1]; exact hp o⟩
      · exact .inr ⟨s, st2, fun o => by
          unfold attrWrite; rw [if_pos h1]; exact hp o⟩
    · by_cases h2 : (fi.omitEmpty && isEmptyValue fv) = true
      · rcases attrWrite_param i rest st with ⟨er, s, st2, hp⟩ | ⟨s, st2, hp⟩
        · exact .inl ⟨er, s, st2, fun o => by
            unfold attrWrite; rw [if_neg h1, if_pos h2]; exact hp o⟩
        · exact .inr ⟨s, st2, fun o => by
            unfold attrWrite; rw [if_neg h1, if_pos h2]; exact hp o⟩
      · by_cases h5 : (ctxGet st i fi.xmlns).getD "" ≠ ""
        · rcases marshalSimple_param fv with ⟨er, hm⟩ | ⟨s2, hm⟩
          · exact .inl ⟨er,
              " " ++ ((ctxGet st i fi.xmlns).getD "" ++ ":") ++ (fi.name ++ "=\""),
              st, fun o => by
              unfold attrWrite
              dsimp only
              rw [if_neg h1, if_neg h2, if_pos h5]
              simp only [basePr_write, String.append_assoc]
              rw [hm]
              try simp only [String.append_assoc]⟩
          · rcases attrWrite_param i rest st with ⟨er3, s3, st3, hp⟩ | ⟨s3, st3, hp⟩
            · exact .inl ⟨er3,
                " " ++ ((ctxGet st i fi.xmlns).getD "" ++ ":") ++ (fi.name ++ "=\"")
                  ++ s2 ++ "\"" ++ s3,
                st3, fun o => by
                unfold attrWrite
                dsimp only
                rw [if_neg h1, if_neg h2, if_pos h5]
                simp only [basePr_write, String.append_assoc]
                rw [hm]
                dsimp only
                simp only [basePr_write, String.append_assoc]
                rw [hp]
                simp only [String.append_assoc]⟩
            · exact .inr ⟨
                " " ++ ((ctxGet st i fi.xmlns).getD "" ++ ":") ++ (fi.name ++ "=\"")
                  ++ s2 ++ "\"" ++ s3,
                st3, fun o => by
                unfold attrWrite
                dsimp only
                rw [if_neg h1, if_neg h2, if_pos h5]
                simp only [basePr_write, String.append_assoc]
                rw [hm]
                dsimp only
                simp only [basePr_write, String.append_assoc]
                rw [hp]
                simp only [String.append_assoc]⟩
        · rcases marshalSimple_param fv with ⟨er, hm⟩ | ⟨s2, hm⟩
          · exact .inl ⟨er, " " ++ (fi.name ++ "=\""), st, fun o => by
              unfold attrWrite
              dsimp only
              rw [if_neg h1, if_neg h2, if_neg h5]
              simp only [basePr_write, String.append_assoc]
              rw [hm]
              try simp only [String.append_assoc]⟩
          · rcases attrWrite_param i rest st with ⟨er3, s3, st3, hp⟩ | ⟨s3, st3, hp⟩
            · exact .inl ⟨er3, " " ++ (fi.name ++ "=\"") ++ s2 ++ "\"" ++ s3,
                st3, fun o => by
                unfold attrWrite
                dsimp only
                rw [if_neg h1, if_neg h2, if_neg h5]
                simp only [basePr_write, String.append_assoc]
                rw [hm]
                dsimp only
                simp only [basePr_write, String.append_assoc]
                rw [hp]
                simp only [String.append_assoc]⟩
            · exact .inr ⟨" " ++ (fi.name ++ "=\"") ++ s2 ++ "\"" ++ s3,
                st3, fun o => by
                unfold attrWrite
                dsimp only
                rw [if_neg h1, if_neg h2, if_neg h5]
                simp only [basePr_write, String.append_assoc]
                rw [hm]
                dsimp only
                simp only [basePr_write, String.append_assoc]
                rw [hp]
                simp only [String.append_assoc]⟩

theorem openElemTag_param (val : Value) (finfo : Option FieldInfo) (i : Nat)
    (st : CtxStore) :
    (∃ er s st2, ∀ o, openElemTag val finfo i { p := basePr o, st := st }
        = .error (er, { p := basePr (o ++ s), st := st2 }))
    ∨ (∃ s st2 pfx mapPfx name, ∀ o,
        openElemTag val finfo i { p := basePr o, st := st }
          = .ok ({ p := basePr (o ++ s), st := st2 }, pfx, mapPfx, name)) := by
  cases hres : resolveNameNs val finfo i st with
  | error er =>
    exact .inl ⟨er, "", st, fun o => by
      unfold openElemTag
      dsimp only
      rw [strANil, hres]⟩
  | ok r =>
    obtain ⟨st2, pfx, name⟩ := r
    by_cases hns : (ctxXmlns st2 i ≠ "" && !(ctxGet st2 i (ctxXmlns st2 i)).isSome) = true
    · refine .inr ⟨("<" ++ tagPfxStr pfx ((ctxGet st2 i (ctxXmlns st2 i)).getD "") ++ name)
          ++ nsDeclStr pfx (ctxXmlns st2 i),
        storeBind st2 i (ctxXmlns st2 i) pfx,
        pfx, (ctxGet st2 i (ctxXmlns st2 i)).getD "", name, fun o => ?_⟩
      unfold openElemTag
      dsimp only
      rw [hres]
      dsimp only
      rw [if_pos hns]
      simp only [basePr_writeIndent, basePr_write, String.append_assoc]
    · refine .inr ⟨"<" ++ tagPfxStr pfx ((ctxGet st2 i (ctxXmlns st2 i)).getD "") ++ name,
        st2, pfx, (ctxGet st2 i (ctxXmlns st2 i)).getD "", name, fun o => ?_⟩
      unfold openElemTag
      dsimp only
      rw [hres]
      dsimp only
      rw [if_neg hns]
      simp only [basePr_writeIndent, basePr_write, String.append_assoc]

theorem openElemAttrs_param (val : Value) (i : Nat) (name : String) (st : CtxStore) :
    (∃ er s st2, ∀ o, openElemAttrs val i name { p := basePr o, st := st }
        = .error (er, { p := basePr (o ++ s), st := st2 }))
    ∨ (∃ s st2, ∀ o, openElemAttrs val i name { p := basePr o, st := st }
        = .ok { p := basePr (o ++ s), st := st2 }) := by
  rcases attrNsScan_param name i (structFields val) st with ⟨er, s, st2, hp⟩ | ⟨s, st2, hp⟩
  · exact .inl ⟨er, s, st2, fun o => by
      unfold openElemAttrs
      rw [hp]⟩
  · rcases attrWrite_param i (structFields val) st2 with ⟨er2, s2, st3, hq⟩ | ⟨s2, st3, hq⟩
    · exact .inl ⟨er2, s ++ s2, st3, fun o => by
        unfold openElemAttrs
        rw [hp]
        dsimp only
        rw [hq]
        try simp only [String.append_assoc]⟩
    · exact .inr ⟨s ++ s2 ++ ">", st3, fun o => by
        unfold openElemAttrs
        rw [hp]
        dsimp only
        rw [hq]
        dsimp only
        simp only [basePr_write, String.append_assoc]⟩

theorem openElement_param (val : Value) (finfo : Option FieldInfo) (i : Nat)
    (st : CtxStore) :
    (∃ er s st2, ∀ o, openElement val finfo i { p := basePr o, st := st }
        = .error (er, { p := basePr (o ++ s), st := st2 }))
    ∨ (∃ s st2 pfx mapPfx name, ∀ o,
        openElement val finfo i { p := basePr o, st := st }
          = .ok ({ p := basePr (o ++ s), st := st2 }, pfx, mapPfx, name)) := by
  rcases openElemTag_param val finfo i st with ⟨er, s, st2, hp⟩ | ⟨s, st2, pfx, mapPfx, name, hp⟩
  · exact .inl ⟨er, s, st2, fun o => by
      unfold openElement
      rw [hp]⟩
  · rcases openElemAttrs_param val i name st2 with ⟨er2, s2, st3, hq⟩ | ⟨s2, st3, hq⟩
    · exact .inl ⟨er2, s ++ s2, st3, fun o => by
        unfold openElement
        rw [hp]
        dsimp only
        rw [hq]
        try simp only [String.append_assoc]⟩
    · exact .inr ⟨s ++ s2, st3, pfx, mapPfx, name, fun o => by
        unfold openElement
        rw [hp]
        dsimp only
        rw [hq]
        try simp only [String.append_assoc]⟩

theorem fieldPre_param (tname : String) (fi : FieldInfo) (vf : Value)
    (st : CtxStore) (stack : List String) :
    (∃ er s, ∀ o, fieldPre tname fi vf { p := basePr o, st := st } stack
        = .err er { p := basePr (o ++ s), st := st })
    ∨ (∃ s, ∀ o, fieldPre tname fi vf { p := basePr o, st := st } stack
        = .skip { p := basePr (o ++ s), st := st })
    ∨ (∃ s stk2, ∀ o, fieldPre tname fi vf { p := basePr o, st := st } stack
        = .proceed { p := basePr (o ++ s), st := st } stk2) := by
  cases hmode : fi.mode with
  | fCharData =>
    cases vf with
    | intV n => exact .inr (.inl ⟨escapeStr (toString n), fun o => by
        unfold fieldPre; rw [hmode]; rfl⟩)
    | boolV b => exact .inr (.inl ⟨escapeStr (if b then "true" else "false"), fun o => by
        unfold fieldPre; rw [hmode]; rfl⟩)
    | str s => exact .inr (.inl ⟨escapeStr s, fun o => by
        unfold fieldPre; rw [hmode]; rfl⟩)
    | bytes b => exact .inr (.inl ⟨escapeStr b, fun o => by
        unfold fieldPre; rw [hmode]; rfl⟩)
    | invalid => exact .inr (.inl ⟨"", fun o => by
        unfold fieldPre; rw [hmode, strANil]⟩)
    | ptrNil => exact .inr (.inl ⟨"", fun o => by
        unfold fieldPre; rw [hmode, strANil]⟩)
    | ptrV v2 => exact .inr (.inl ⟨"", fun o => by
        unfold fieldPre; rw [hmode, strANil]⟩)
    | ifaceNil => exact .inr (.inl ⟨"", fun o => by
        unfold fieldPre; rw [hmode, strANil]⟩)
    | ifaceV v2 => exact .inr (.inl ⟨"", fun o => by
        unfold fieldPre; rw [hmode, strANil]⟩)
    | arr l => exact .inr (.inl ⟨"", fun o => by
        unfold fieldPre; rw [hmode, strANil]⟩)
    | mapV n => exact .inr (.inl ⟨"", fun o => by
        unfold fieldPre; rw [hmode, strANil]⟩)
    | structV tn xn nv flds => exact .inr (.inl ⟨"", fun o => by
        unfold fieldPre; rw [hmode, strANil]⟩)
  | fComment =>
    cases vf with
    | str s =>
      by_cases hlen : s.length = 0
      · exact .inr (.inl ⟨"", fun o => by
          unfold fieldPre; rw [hmode]; dsimp only; rw [if_pos hlen, strANil]⟩)
      · by_cases hdd : hasDashDash s = true
        · exact .inl ⟨.commentDashDash, "<!--", fun o => by
            unfold fieldPre; rw [hmode]; dsimp only; rw [if_neg hlen]
            simp only [hdd, if_pos, basePr_writeIndent, basePr_write]⟩
        · by_cases hdl : endsWithDash s = true
          · exact .inr (.inl ⟨"<!--" ++ s ++ " " ++ "-->", fun o => by
              unfold fieldPre; rw [hmode]; dsimp only; rw [if_neg hlen]
              simp only [hdd, hdl, Bool.false_eq_true, if_false, if_pos,
                basePr_writeIndent, basePr_write, String.append_assoc]⟩)
          · exact .inr (.inl ⟨"<!--" ++ s ++ "-->", fun o => by
              unfold fieldPre; rw [hmode]; dsimp only; rw [if_neg hlen]
              simp only [hdd, hdl, Bool.false_eq_true, if_false,
                basePr_writeIndent, basePr_write, String.append_assoc]⟩)
    | bytes b =>
      by_cases hlen : b.length = 0
      · exact .inr (.inl ⟨"", fun o => by
          unfold fieldPre; rw [hmode]; dsimp only; rw [if_pos hlen, strANil]⟩)
      · by_cases hdd : hasDashDash b = true
        · exact .inl ⟨.commentDashDash, "<!--", fun o => by
            unfold fieldPre; rw [hmode]; dsimp only; rw [if_neg hlen]
            simp only [hdd, if_pos, basePr_writeIndent, basePr_write]⟩
        · by_cases hdl : endsWithDash b = true
          · exact .inr (.inl ⟨"<!--" ++ b ++ " " ++ "-->", fun o => by
              unfold fieldPre; rw [hmode]; dsimp only; rw [if_neg hlen]
              simp only [hdd, hdl, Bool.false_eq_true, if_false, if_pos,
                basePr_writeIndent, basePr_write, String.append_assoc]⟩)
          · exact .inr (.inl ⟨"<!--" ++ b ++ "-->", fun o => by
              unfold fieldPre; rw [hmode]; dsimp only; rw [if_neg hlen]
              simp only [hdd, hdl, Bool.false_eq_true, if_false,
                basePr_writeIndent, basePr_write, String.append_assoc]⟩)
    | invalid => exact .inl ⟨.badCommentType tname, "", fun o => by
        unfold fieldPre; rw [hmode, strANil]⟩
    | ptrNil => exact .inl ⟨.badCommentType tname, "", fun o => by
        unfold fieldPre; rw [hmode, strANil]⟩
    | ptrV v2 => exact .inl ⟨.badCommentType tname, "", fun o => by
        unfold fieldPre; rw [hmode, strANil]⟩
    | ifaceNil => exact .inl ⟨.badCommentType tname, "", fun o => by
        unfold fieldPre; rw [hmode, strANil]⟩
    | ifaceV v2 => exact .inl ⟨.badCommentType tname, "", fun o => by
        unfold fieldPre; rw [hmode, strANil]⟩
    | arr l => exact .inl ⟨.badCommentType tname, "", fun o => by
        unfold fieldPre; rw [hmode, strANil]⟩
    | intV n => exact .inl ⟨.badCommentType tname, "", fun o => by
        unfold fieldPre; rw [hmode, strANil]⟩
    | boolV bb => exact .inl ⟨.badCommentType tname, "", fun o => by
        unfold fieldPre; rw [hmode, strANil]⟩
    | mapV n => exact .inl ⟨.badCommentType tname, "", fun o => by
        unfold fieldPre; rw [hmode, strANil]⟩
    | structV tn xn nv flds => exact .inl ⟨.badCommentType tname, "", fun o => by
        unfold fieldPre; rw [hmode, strANil]⟩
  | fInnerXml =>
    cases hu : unwrapIface vf with
    | bytes b => exact .inr (.inl ⟨b, fun o => by
        unfold fieldPre; rw [hmode]; dsimp only; rw [hu]; rfl⟩)
    | str s => exact .inr (.inl ⟨s, fun o => by
        unfold fieldPre; rw [hmode]; dsimp only; rw [hu]; rfl⟩)
    | invalid => exact .inr (.inr ⟨"", stack, fun o => by
        unfold fieldPre; rw [hmode]; dsimp only; rw [hu, strANil]⟩)
    | ptrNil => exact .inr (.inr ⟨"", stack, fun o => by
        unfold fieldPre; rw [hmode]; dsimp only; rw [hu, strANil]⟩)
    | ptrV v2 => exact .inr (.inr ⟨"", stack, fun o => by
        unfold fieldPre; rw [hmode]; dsimp only; rw [hu, strANil]⟩)
    | ifaceNil => exact .inr (.inr ⟨"", stack, fun o => by
        unfold fieldPre; rw [hmode]; dsimp only; rw [hu, strANil]⟩)
    | ifaceV v2 => exact .inr (.inr ⟨"", stack, fun o => by
        unfold fieldPre; rw [hmode]; dsimp only; rw [hu, strANil]⟩)
    | arr l => exact .inr (.inr ⟨"", stack, fun o => by
        unfold fieldPre; rw [hmode]; dsimp only; rw [hu, strANil]⟩)
    | intV n => exact .inr (.inr ⟨"", stack, fun o => by
        unfold fieldPre; rw [hmode]; dsimp only; rw [hu, strANil]⟩)
    | boolV bb => exact .inr (.inr ⟨"", stack, fun o => by
        unfold fieldPre; rw [hmode]; dsimp only; rw [hu, strANil]⟩)
    | mapV n => exact .inr (.inr ⟨"", stack, fun o => by
        unfold fieldPre; rw [hmode]; dsimp only; rw [hu, strANil]⟩)
    | structV tn xn nv flds => exact .inr (.inr ⟨"", stack, fun o => by
        unfold fieldPre; rw [hmode]; dsimp only; rw [hu, strANil]⟩)
  | fElement =>
    obtain ⟨s, stk2, ht⟩ := trimPush_param stack fi.parents vf
    exact .inr (.inr ⟨s, stk2, fun o => by
      unfold fieldPre; rw [hmode]; dsimp only; rw [ht]⟩)
  | fElementAny =>
    obtain ⟨s, stk2, ht⟩ := trimPush_param stack fi.parents vf
    exact .inr (.inr ⟨s, stk2, fun o => by
      unfold fieldPre; rw [hmode]; dsimp only; rw [ht]⟩)
  | fAttr =>
    exact .inr (.inr ⟨"", stack, fun o => by
      unfold fieldPre; rw [hmode, strANil]⟩)

theorem commonPrefixLen_nil (l : List String) : commonPrefixLen [] l = 0 := rfl

/-- Output parametricity of the interpreter under the default printer
configuration: the error or success outcome, the bytes appended, the
final store and the returned parent stack are all independent of the
output already accumulated. -/
theorem runF_param (fuel : Nat) : ∀ (job : Job) (st : CtxStore),
    (∃ er s st2, ∀ o, runF fuel job { p := basePr o, st := st }
        = .error (er, { p := basePr (o ++ s), st := st2 }))
    ∨ (∃ s st2 stk, ∀ o, runF fuel job { p := basePr o, st := st }
        = .ok ({ p := basePr (o ++ s), st := st2 }, stk)) := by
  induction fuel with
  | zero =>
    intro job st
    exact .inl ⟨.outOfFuel, "", st, fun o => by rw [strANil]; rfl⟩
  | succ fuel ih =>
    intro job st
    cases job with
    | value val finfo i =>
      cases val with
      | invalid => exact .inr ⟨"", st, [], fun o => by rw [strANil]; rfl⟩
      | ptrNil => exact .inr ⟨"", st, [], fun o => by
          rw [strANil]
          simp only [runF]
          rw [ite_self]⟩
      | ifaceNil => exact .inr ⟨"", st, [], fun o => by
          rw [strANil]
          simp only [runF]
          rw [ite_self]⟩
      | ptrV v2 =>
        by_cases hg : (match finfo with
            | some f => f.omitEmpty && isEmptyValue (Value.ptrV v2)
            | none => false) = true
        · exact .inr ⟨"", st, [], fun o => by
            rw [strANil]
            simp only [runF]
            split
            · rfl
            · rename_i hc
              exact absurd hg hc⟩
        · rcases ih (.value v2 finfo i) st with ⟨er, s, st2, hp⟩ | ⟨s, st2, stk, hp⟩
          · exact .inl ⟨er, s, st2, fun o => by
              simp only [runF]
              split
              · rename_i hc; exact absurd hc hg
              · exact hp o⟩
          · exact .inr ⟨s, st2, stk, fun o => by
              simp only [runF]
              split
              · rename_i hc; exact absurd hc hg
              · exact hp o⟩
      | ifaceV v2 =>
        by_cases hg : (match finfo with
            | some f => f.omitEmpty && isEmptyValue (Value.ifaceV v2)
            | none => false) = true
        · exact .inr ⟨"", st, [], fun o => by
            rw [strANil]
            simp only [runF]
            split
            · rfl
            · rename_i hc
              exact absurd hg hc⟩
        · rcases ih (.value v2 finfo i) st with ⟨er, s, st2, hp⟩ | ⟨s, st2, stk, hp⟩
          · exact .inl ⟨er, s, st2, fun o => by
              simp only [runF]
              split
              · rename_i hc; exact absurd hc hg
              · exact hp o⟩
          · exact .inr ⟨s, st2, stk, fun o => by
              simp only [runF]
              split
              · rename_i hc; exact absurd hc hg
              · exact hp o⟩
      | arr elems =>
        by_cases hg : (match finfo with
            | some f => f.omitEmpty && isEmptyValue (Value.arr elems)
            | none => false) = true
        · exact .inr ⟨"", st, [], fun o => by
            rw [strANil]
            simp only [runF]
            split
            · rfl
            · rename_i hc
              exact absurd hg hc⟩
        · rcases ih (.listJ elems finfo i) st with ⟨er, s, st2, hp⟩ | ⟨s, st2, stk, hp⟩
          · exact .inl ⟨er, s, st2, fun o => by
              simp only [runF]
              split
              · rename_i hc; exact absurd hc hg
              · exact hp o⟩
          · exact .inr ⟨s, st2, stk, fun o => by
              simp only [runF]
              split
              · rename_i hc; exact absurd hc hg
              · exact hp o⟩
      | bytes d =>
        by_cases hg : (match finfo with
            | some f => f.omitEmpty && isEmptyValue (Value.bytes d)
            | none => false) = true
        · exact .inr ⟨"", st, [], fun o => by
            rw [strANil]
            simp only [runF]
            split
            · rfl
            · rename_i hc
              exact absurd hg hc⟩
        · rcases openElement_param (Value.bytes d) finfo i st with
            ⟨er, s, st2, hoe⟩ | ⟨s, st2, pfx, mapPfx, name, hoe⟩
          · exact .inl ⟨er, s, st2, fun o => by
              simp only [runF]
              split
              · rename_i hc; exact absurd hc hg
              · rw [hoe]⟩
          · rcases marshalSimple_param (Value.bytes d) with ⟨er2, hm⟩ | ⟨s2, hm⟩
            · exact .inl ⟨er2, s, st2, fun o => by
                simp only [runF]
                split
                · rename_i hc; exact absurd hc hg
                · rw [hoe]
                  dsimp only
                  rw [hm]⟩
            · exact .inr ⟨s ++ s2 ++ ("</" ++ tagPfxStr pfx mapPfx ++ name ++ ">"),
                st2, [], fun o => by
                simp only [runF]
                split
                · rename_i hc; exact absurd hc hg
                · rw [hoe]
                  dsimp only
                  rw [hm]
                  dsimp only
                  rw [closeElement_base]
                  simp only [String.append_assoc]⟩
      | str sv =>
        by_cases hg : (match finfo with
            | some f => f.omitEmpty && isEmptyValue (Value.str sv)
            | none => false) = true
        · exact .inr ⟨"", st, [], fun o => by
            rw [strANil]
            simp only [runF]
            split
            · rfl
            · rename_i hc
              exact absurd hg hc⟩
        · rcases openElement_param (Value.str sv) finfo i st with
            ⟨er, s, st2, hoe⟩ | ⟨s, st2, pfx, mapPfx, name, hoe⟩
          · exact .inl ⟨er, s, st2, fun o => by
              simp only [runF]
              split
              · rename_i hc; exact absurd hc hg
              · rw [hoe]⟩
          · rcases marshalSimple_param (Value.str sv) with ⟨er2, hm⟩ | ⟨s2, hm⟩
            · exact .inl ⟨er2, s, st2, fun o => by
                simp only [runF]
                split
                · rename_i hc; exact absurd hc hg
                · rw [hoe]
                  dsimp only
                  rw [hm]⟩
            · exact .inr ⟨s ++ s2 ++ ("</" ++ tagPfxStr pfx mapPfx ++ name ++ ">"),
                st2, [], fun o => by
                simp only [runF]
                split
                · rename_i hc; exact absurd hc hg
                · rw [hoe]
                  dsimp only
                  rw [hm]
                  dsimp only
                  rw [closeElement_base]
                  simp only [String.append_assoc]⟩
      | intV n =>
        by_cases hg : (match finfo with
            | some f => f.omitEmpty && isEmptyValue (Value.intV n)
            | none => false) = true
        · exact .inr ⟨"", st, [], fun o => by
            rw [strANil]
            simp only [runF]
            split
            · rfl
            · rename_i hc
              exact absurd hg hc⟩
        · rcases openElement_param (Value.intV n) finfo i st with
            ⟨er, s, st2, hoe⟩ | ⟨s, st2, pfx, mapPfx, name, hoe⟩
          · exact .inl ⟨er, s, st2, fun o => by
              simp only [runF]
              split
              · rename_i hc; exact absurd hc hg
              · rw [hoe]⟩
          · rcases marshalSimple_param (Value.intV n) with ⟨er2, hm⟩ | ⟨s2, hm⟩
            · exact .inl ⟨er2, s, st2, fun o => by
                simp only [runF]
                split
                · rename_i hc; exact absurd hc hg
                · rw [hoe]
                  dsimp only
                  rw [hm]⟩
            · exact .inr ⟨s ++ s2 ++ ("</" ++ tagPfxStr pfx mapPfx ++ name ++ ">"),
                st2, [], fun o => by
                simp only [runF]
                split
                · rename_i hc; exact absurd hc hg
                · rw [hoe]
                  dsimp only
                  rw [hm]
                  dsimp only
                  rw [closeElement_base]
                  simp only [String.append_assoc]⟩
      | boolV b =>
        by_cases hg : (match finfo with
            | some f => f.omitEmpty && isEmptyValue (Value.boolV b)
            | none => false) = true
        · exact .inr ⟨"", st, [], fun o => by
            rw [strANil]
            simp only [runF]
            split
            · rfl
            · rename_i hc
              exact absurd hg hc⟩
        · rcases openElement_param (Value.boolV b) finfo i st with
            ⟨er, s, st2, hoe⟩ | ⟨s, st2, pfx, mapPfx, name, hoe⟩
          · exact .inl ⟨er, s, st2, fun o => by
              simp only [runF]
              split
              · rename_i hc; exact absurd hc hg
              · rw [hoe]⟩
          · rcases marshalSimple_param (Value.boolV b) with ⟨er2, hm⟩ | ⟨s2, hm⟩
            · exact .inl ⟨er2, s, st2, fun o => by
                simp only [runF]
                split
                · rename_i hc; exact absurd hc hg
                · rw [hoe]
                  dsimp only
                  rw [hm]⟩
            · exact .inr ⟨s ++ s2 ++ ("</" ++ tagPfxStr pfx mapPfx ++ name ++ ">"),
                st2, [], fun o => by
                simp only [runF]
                split
                · rename_i hc; exact absurd hc hg
                · rw [hoe]
                  dsimp only
                  rw [hm]
                  dsimp only
                  rw [closeElement_base]
                  simp only [String.append_assoc]⟩
      | mapV n =>
        by_cases hg : (match finfo with
            | some f => f.omitEmpty && isEmptyValue (Value.mapV n)
            | none => false) = true
        · exact .inr ⟨"", st, [], fun o => by
            rw [strANil]
            simp only [runF]
            split
            · rfl
            · rename_i hc
              exact absurd hg hc⟩
        · rcases openElement_param (Value.mapV n) finfo i st with
            ⟨er, s, st2, hoe⟩ | ⟨s, st2, pfx, mapPfx, name, hoe⟩
          · exact .inl ⟨er, s, st2, fun o => by
              simp only [runF]
              split
              · rename_i hc; exact absurd hc hg
              · rw [hoe]⟩
          · rcases marshalSimple_param (Value.mapV n) with ⟨er2, hm⟩ | ⟨s2, hm⟩
            · exact .inl ⟨er2, s, st2, fun o => by
                simp only [runF]
                split
                · rename_i hc; exact absurd hc hg
                · rw [hoe]
                  dsimp only
                  rw [hm]⟩
            · exact .inr ⟨s ++ s2 ++ ("</" ++ tagPfxStr pfx mapPfx ++ name ++ ">"),
                st2, [], fun o => by
                simp only [runF]
                split
                · rename_i hc; exact absurd hc hg
                · rw [hoe]
                  dsimp only
                  rw [hm]
                  dsimp only
                  rw [closeElement_base]
                  simp only [String.append_assoc]⟩
      | structV tn xn nv flds =>
        by_cases hg : (match finfo with
            | some f => f.omitEmpty && isEmptyValue (Value.structV tn xn nv flds)
            | none => false) = true
        · exact .inr ⟨"", st, [], fun o => by
            rw [strANil]
            simp only [runF]
            split
            · rfl
            · rename_i hc
              exact absurd hg hc⟩
        · rcases openElement_param (Value.structV tn xn nv flds) finfo i st with
            ⟨er, s, st2, hoe⟩ | ⟨s, st2, pfx, mapPfx, name, hoe⟩
          · exact .inl ⟨er, s, st2, fun o => by
              simp only [runF]
              split
              · rename_i hc; exact absurd hc hg
              · rw [hoe]⟩
          · rcases ih (.fieldsJ tn flds i []) st2 with
              ⟨er2, s2, st3, hf⟩ | ⟨s2, st3, stk2, hf⟩
            · exact .inl ⟨er2, s ++ s2, st3, fun o => by
                simp only [runF]
                split
                · rename_i hc; exact absurd hc hg
                · rw [hoe]
                  dsimp only
                  rw [hf]
                  try dsimp only
                  try simp only [String.append_assoc]
                  try rfl⟩
            · exact .inr ⟨s ++ s2 ++ closeSeq stk2.reverse
                  ++ ("</" ++ tagPfxStr pfx mapPfx ++ name ++ ">"), st3, [], fun o => by
                simp only [runF]
                split
                · rename_i hc; exact absurd hc hg
                · rw [hoe]
                  dsimp only
                  rw [hf]
                  dsimp only
                  rw [psTrim_base]
                  dsimp only
                  rw [closeElement_base]
                  simp only [commonPrefixLen_nil, List.drop_zero, String.append_assoc]⟩
    | listJ elems finfo i =>
      cases elems with
      | nil => exact .inr ⟨"", st, [], fun o => by rw [strANil]; rfl⟩
      | cons v rest =>
        rcases ih (.value v finfo st.length) (st ++ [newCtxNode i]) with
          ⟨er, s, st2, hv⟩ | ⟨s, st2, stk, hv⟩
        · exact .inl ⟨er, s, st2, fun o => by
            simp only [runF]
            try dsimp only
            rw [hv]⟩
        · rcases ih (.listJ rest finfo i) st2 with ⟨er2, s2, st3, hr⟩ | ⟨s2, st3, stk2, hr⟩
          · exact .inl ⟨er2, s ++ s2, st3, fun o => by
              simp only [runF]
              try dsimp only
              rw [hv]
              try dsimp only
              rw [hr]
              try simp only [String.append_assoc]
              try rfl⟩
          · exact .inr ⟨s ++ s2, st3, stk2, fun o => by
              simp only [runF]
              try dsimp only
              rw [hv]
              try dsimp only
              rw [hr]
              try simp only [String.append_assoc]
              try rfl⟩
    | fieldsJ tname flds i stack =>
      cases flds with
      | nil => exact .inr ⟨"", st, stack, fun o => by rw [strANil]; rfl⟩
      | cons fi vf rest =>
        by_cases hattr : fi.mode = .fAttr
        · rcases ih (.fieldsJ tname rest i stack) st with
            ⟨er, s, st2, hp⟩ | ⟨s, st2, stk2, hp⟩
          · exact .inl ⟨er, s, st2, fun o => by
              simp only [runF]
              rw [if_pos hattr]
              exact hp o⟩
          · exact .inr ⟨s, st2, stk2, fun o => by
              simp only [runF]
              rw [if_pos hattr]
              exact hp o⟩
        · rcases fieldPre_param tname fi vf st stack with
            ⟨er, s, hp⟩ | ⟨s, hp⟩ | ⟨s, stk2, hp⟩
          · exact .inl ⟨er, s, st, fun o => by
              simp only [runF]
              rw [if_neg hattr]
              rw [hp]⟩
          · rcases ih (.fieldsJ tname rest i stack) st with
              ⟨er2, s2, st3, hr⟩ | ⟨s2, st3, stk3, hr⟩
            · exact .inl ⟨er2, s ++ s2, st3, fun o => by
                simp only [runF]
                rw [if_neg hattr]
                rw [hp]
                dsimp only
                rw [hr]
                try simp only [String.append_assoc]
                try rfl⟩
            · exact .inr ⟨s ++ s2, st3, stk3, fun o => by
                simp only [runF]
                rw [if_neg hattr]
                rw [hp]
                dsimp only
                rw [hr]
                try simp only [String.append_assoc]
                try rfl⟩
          · rcases ih (.value vf (some fi) st.length) (st ++ [newCtxNode i]) with
              ⟨er2, s2, st3, hv⟩ | ⟨s2, st3, stkx, hv⟩
            · exact .inl ⟨er2, s ++ s2, st3, fun o => by
                simp only [runF]
                rw [if_neg hattr]
                rw [hp]
                dsimp only
                rw [hv]
                try dsimp only
                try simp only [String.append_assoc]
                try rfl⟩
            · rcases ih (.fieldsJ tname rest i stk2) st3 with
                ⟨er3, s3, st4, hr⟩ | ⟨s3, st4, stk4, hr⟩
              · exact .inl ⟨er3, s ++ s2 ++ s3, st4, fun o => by
                  simp only [runF]
                  rw [if_neg hattr]
                  rw [hp]
                  dsimp only
                  rw [hv]
                  dsimp only
                  rw [hr]
                  try simp only [String.append_assoc]
                  try rfl⟩
              · exact .inr ⟨s ++ s2 ++ s3, st4, stk4, fun o => by
                  simp only [runF]
                  rw [if_neg hattr]
                  rw [hp]
                  dsimp only
                  rw [hv]
                  dsimp only
                  rw [hr]
                  try simp only [String.append_assoc]
                  try rfl⟩

theorem newPrinter_base : newPrinter = basePr "" := rfl

theorem strNilApp (s : String) : "" ++ s = s := rfl

/-- C8: `Encode` never mutates the root context.  Each call starts from a
fresh, initially empty child of the root (`[root, newCtxNode 0]`), so a
successful encode leaves the encoder's root bindings exactly as they
were, and encoding the same value again through the same encoder runs
from an identical context chain with an identical (default) printer
configuration: the second call succeeds with byte-for-byte the same
output appended after the first — namespaces declared by the first
element do not leak into the second, which independently re-declares
them. -/
theorem claim_encode_twice (v : Value) (e1 : GoEncoder)
    (h : encoderEncode NewEncoder v = .ok e1) :
    e1.root = rootCtxNode ∧
    encoderEncode e1 v
      = .ok { p := { e1.p with out := e1.p.out ++ e1.p.out }, root := rootCtxNode } := by
  rcases runF_param (sizeV v) (.value v none 1) [rootCtxNode, newCtxNode 0] with
    ⟨er, s, st2, hp⟩ | ⟨s, st2, stk, hp⟩
  · exfalso
    have h0 := hp ""
    rw [strNilApp] at h0
    simp only [encoderEncode, marshalValue, NewEncoder, newPrinter_base] at h
    rw [h0] at h
    simp at h
  · have h0 := hp ""
    rw [strNilApp] at h0
    have hfr := (runF_frame (sizeV v) (.value v none 1)
        { p := basePr "", st := [rootCtxNode, newCtxNode 0] }).2 0 (by decide)
        Nat.zero_ne_one
    rw [h0] at hfr
    simp only [resSt] at hfr
    have hroot : st2[0]? = some rootCtxNode := by
      rw [hfr]
      rfl
    have hEnc : encoderEncode NewEncoder v
        = .ok { p := basePr s, root := rootCtxNode } := by
      simp only [encoderEncode, marshalValue, NewEncoder, newPrinter_base]
      rw [h0]
      dsimp only
      rw [hroot]
      rfl
    have he1 : e1 = { p := basePr s, root := rootCtxNode } :=
      (Except.ok.inj (hEnc.symm.trans h)).symm
    subst he1
    refine ⟨rfl, ?_⟩
    have h1 := hp s
    simp only [encoderEncode, marshalValue]
    try dsimp only
    rw [h1]
    dsimp only
    rw [hroot]
    rfl

/-- A concrete value for exercising `claim_encode_twice`: the C5 XMLName
struct, whose first encode through a fresh encoder yields
`<error xmlns="xmpp1"></error>`. -/
def vC8 : Value := .structV "S" (some { name := "error", xmlns := "xmpp1" }) none .nil

/-- The encoder state after the first successful encode of `vC8`. -/
def encC8 : GoEncoder :=
  { p := basePr "<error xmlns=\"xmpp1\"></error>", root := rootCtxNode }

theorem claim_encode_twice_witness :
    encC8.root = rootCtxNode ∧
    encoderEncode encC8 vC8
      = .ok { p := { encC8.p with out := encC8.p.out ++ encC8.p.out },
              root := rootCtxNode } :=
  claim_encode_twice vC8 encC8 rfl
